import Mathlib

/-!
# Verification of `jacobian.py` (sequence-jacobian)

Shallow embedding of the Jacobian-manipulation module `src/jacobian.py`.

Modelling conventions:
* Python `dict`s (insertion-ordered, unique keys) are association lists
  `List (String × α)`; `dget` is `d.get(k)` / `d[k]`, `dset` is `d[k] = v`
  (rebinds the key in place if it exists, appends otherwise), `dupdate` is
  `d.update(other)`.  General association lists may repeat keys, which a real
  Python dict cannot; theorems that need uniqueness take `dNodup` hypotheses.
* Numeric scalars (numpy floats) are modelled as rationals `Rat`; a dense
  numpy 2-D array is a list of rows `Mat := List (List Rat)`, and a length-T
  sequence is `List Rat`.
* The operator algebra: `Operator.identity` embeds the `IdentityMatrix` class
  of `jacobian.py`.  The sparse time-shift class `SimpleSparse` lives in
  `simple_block.py`, which is not part of the sources under verification; the
  only sparse values reachable from `jacobian.py` itself are scalar multiples
  of `SimpleSparse({(0, 0): c})` (via `IdentityMatrix.sparse`, `__mul__`,
  `__add__`, ...), embedded as `Operator.scalarId c` and modelled from the
  spec's operator contract (identity acts as multiplicative identity,
  additions materialize identity into general form, `to_matrix T` produces
  the dense `T×T` array).
* `copy.deepcopy` on a pure value is the value itself (`deepcopy = id`):
  a deep copy is structurally equal to its source, and in a pure value
  semantics the absence of aliasing is automatic.
-/

/-! ## Dictionaries (Python `dict` as association list) -/

abbrev Dict (α : Type) : Type := List (String × α)

/-- `d.get(k)`: the value at the first occurrence of key `k`. -/
def dget {α : Type} (d : Dict α) (k : String) : Option α :=
  match d with
  | [] => none
  | p :: rest => if p.1 = k then some p.2 else dget rest k

/-- `d.get(k, dflt)`. -/
def dgetD {α : Type} (d : Dict α) (k : String) (dflt : α) : α :=
  (dget d k).getD dflt

/-- `d[k] = v`: rebind an existing key in place, else append at the end.
(On duplicate-free lists — all real Python dicts — this is exactly the
Python assignment.) -/
def dset {α : Type} (d : Dict α) (k : String) (v : α) : Dict α :=
  match d with
  | [] => [(k, v)]
  | p :: rest => if p.1 = k then (k, v) :: rest else p :: dset rest k v

/-- `d.update(other)`: set every key/value pair of `other` in `d`, in order. -/
def dupdate {α : Type} (d other : Dict α) : Dict α :=
  other.foldl (fun acc p => dset acc p.1 p.2) d

/-- `list(d.keys())`. -/
def dkeys {α : Type} (d : Dict α) : List String :=
  d.map (·.1)

/-- `k in d`. -/
def dmem {α : Type} (k : String) (d : Dict α) : Prop :=
  k ∈ dkeys d

instance {α : Type} (k : String) (d : Dict α) : Decidable (dmem k d) := by
  unfold dmem; infer_instance

/-- Well-formedness of a real Python dict: no key occurs twice. -/
def dNodup {α : Type} (d : Dict α) : Prop :=
  (dkeys d).Nodup

instance {α : Type} (d : Dict α) : Decidable (dNodup d) := by
  unfold dNodup; infer_instance

/-! ### Basic dictionary lemmas -/

theorem dget_nil {α : Type} (k : String) : dget ([] : Dict α) k = none := rfl

theorem dget_cons {α : Type} (p : String × α) (d : Dict α) (k : String) :
    dget (p :: d) k = if p.1 = k then some p.2 else dget d k := rfl

theorem dget_eq_none_of_not_mem {α : Type} {d : Dict α} {k : String}
    (h : ¬ dmem k d) : dget d k = none := by
  induction d with
  | nil => rfl
  | cons p d ih =>
    rw [dget_cons]
    simp only [dmem, dkeys, List.map_cons, List.mem_cons] at h
    push_neg at h
    rw [if_neg (fun he => h.1 he.symm)]
    exact ih h.2

theorem dmem_iff_isSome {α : Type} (d : Dict α) (k : String) :
    dmem k d ↔ (dget d k).isSome := by
  induction d with
  | nil => simp [dmem, dkeys, dget]
  | cons p d ih =>
    rw [dget_cons]
    simp only [dmem, dkeys, List.map_cons, List.mem_cons]
    by_cases h : p.1 = k
    · simp [h]
    · rw [if_neg h]
      constructor
      · rintro (rfl | hm)
        · exact absurd rfl h
        · exact ih.1 hm
      · intro hs
        exact Or.inr (ih.2 hs)

theorem dget_dset_self {α : Type} (d : Dict α) (k : String) (v : α) :
    dget (dset d k v) k = some v := by
  induction d with
  | nil => simp [dset, dget]
  | cons p d ih =>
    rw [dset]
    by_cases h : p.1 = k
    · rw [if_pos h, dget_cons, if_pos rfl]
    · rw [if_neg h, dget_cons, if_neg h]
      exact ih

theorem dget_dset_ne {α : Type} (d : Dict α) (k k' : String) (v : α)
    (h : k ≠ k') : dget (dset d k v) k' = dget d k' := by
  induction d with
  | nil => simp [dset, dget, h]
  | cons p d ih =>
    rw [dset]
    by_cases hp : p.1 = k
    · rw [if_pos hp, dget_cons, dget_cons, if_neg h, if_neg (hp ▸ h)]
    · rw [if_neg hp, dget_cons, dget_cons]
      by_cases hp' : p.1 = k'
      · rw [if_pos hp', if_pos hp']
      · rw [if_neg hp', if_neg hp']
        exact ih

theorem dmem_dset {α : Type} (d : Dict α) (k k' : String) (v : α) :
    dmem k' (dset d k v) ↔ k' = k ∨ dmem k' d := by
  induction d with
  | nil => simp [dset, dmem, dkeys, eq_comm]
  | cons p d ih =>
    rw [dset]
    by_cases hp : p.1 = k
    · rw [if_pos hp]
      simp only [dmem, dkeys, List.map_cons, List.mem_cons]
      rw [hp]
      tauto
    · rw [if_neg hp]
      simp only [dmem, dkeys, List.map_cons, List.mem_cons] at *
      rw [ih]
      tauto

theorem dkeys_dset_of_mem {α : Type} {d : Dict α} {k : String} (v : α)
    (h : dmem k d) : dkeys (dset d k v) = dkeys d := by
  induction d with
  | nil => cases h
  | cons p d ih =>
    rw [dset]
    by_cases hp : p.1 = k
    · rw [if_pos hp]
      simp [dkeys, hp]
    · rw [if_neg hp]
      simp only [dmem, dkeys, List.map_cons, List.mem_cons] at h
      rcases h with rfl | h
      · exact absurd rfl hp
      · simp only [dkeys, List.map_cons]
        rw [show List.map Prod.fst (dset d k v) = dkeys (dset d k v) from rfl,
          ih h]
        rfl

theorem dkeys_dset_of_not_mem {α : Type} {d : Dict α} {k : String} (v : α)
    (h : ¬ dmem k d) : dkeys (dset d k v) = dkeys d ++ [k] := by
  induction d with
  | nil => simp [dset, dkeys]
  | cons p d ih =>
    simp only [dmem, dkeys, List.map_cons, List.mem_cons] at h
    push_neg at h
    rw [dset, if_neg (fun he => h.1 he.symm)]
    simp only [dkeys, List.map_cons]
    rw [show List.map Prod.fst (dset d k v) = dkeys (dset d k v) from rfl,
      ih h.2]
    rfl

theorem dNodup_dset {α : Type} {d : Dict α} (k : String) (v : α)
    (h : dNodup d) : dNodup (dset d k v) := by
  by_cases hm : dmem k d
  · unfold dNodup
    rw [dkeys_dset_of_mem v hm]
    exact h
  · unfold dNodup
    rw [dkeys_dset_of_not_mem v hm]
    simp only [List.nodup_append, List.nodup_cons, List.nodup_nil]
    refine ⟨h, by simp, ?_⟩
    intro a ha hb
    simp only [List.mem_singleton] at hb
    exact hm (hb ▸ ha)

theorem dget_dupdate_of_not_mem {α : Type} (d : Dict α) {other : Dict α}
    {k : String} (h : ¬ dmem k other) : dget (dupdate d other) k = dget d k := by
  induction other generalizing d with
  | nil => rfl
  | cons p rest ih =>
    simp only [dmem, dkeys, List.map_cons, List.mem_cons] at h
    push_neg at h
    show dget (dupdate (dset d p.1 p.2) rest) k = dget d k
    rw [ih _ (by exact h.2), dget_dset_ne _ _ _ _ (fun he => h.1 he.symm)]

theorem dmem_dupdate {α : Type} (d other : Dict α) (k : String) :
    dmem k (dupdate d other) ↔ dmem k d ∨ dmem k other := by
  induction other generalizing d with
  | nil => simp [dupdate, dmem, dkeys]
  | cons p rest ih =>
    show dmem k (dupdate (dset d p.1 p.2) rest) ↔ _
    rw [ih]
    rw [dmem_dset]
    simp only [dmem, dkeys, List.map_cons, List.mem_cons]
    tauto

/-! ## Dense matrices and sequences -/

/-- A dense numpy 2-D array: a list of rows of rationals. -/
abbrev Mat : Type := List (List Rat)

/-- A length-T numeric sequence (numpy 1-D array). -/
abbrev Val : Type := List Rat

/-- `M[r, c]`, with out-of-range reads defaulting to `0`. -/
def entry (M : Mat) (r c : Nat) : Rat :=
  (M.getD r []).getD c 0

/-- `M` has shape `(r, c)`. -/
def dims (M : Mat) (r c : Nat) : Prop :=
  M.length = r ∧ ∀ row ∈ M, row.length = c

instance (M : Mat) (r c : Nat) : Decidable (dims M r c) := by
  unfold dims; infer_instance

/-- `np.zeros((r, c))`. -/
def zeros (r c : Nat) : Mat :=
  List.replicate r (List.replicate c 0)

/-- `np.eye(T)`. -/
def eye (T : Nat) : Mat :=
  (List.range T).map (fun r => (List.range T).map (fun c => if r = c then (1 : Rat) else 0))

def dot (xs ys : List Rat) : Rat :=
  (List.zipWith (· * ·) xs ys).sum

/-- Dense `A @ B` (shapes assumed compatible, as numpy requires). -/
def matMul (A B : Mat) : Mat :=
  A.map (fun row => (List.range (B.headD []).length).map
    (fun j => dot row (B.map (fun brow => brow.getD j 0))))

/-- Dense entrywise `A + B`. -/
def matAdd (A B : Mat) : Mat :=
  List.zipWith (fun ra rb => List.zipWith (· + ·) ra rb) A B

/-- Scalar times dense array. -/
def scalMul (c : Rat) (A : Mat) : Mat :=
  A.map (fun row => row.map (fun x => c * x))

/-- Dense matrix applied to a vector, `A @ v`. -/
def matVec (A : Mat) (v : Val) : Val :=
  A.map (fun row => dot row v)

/-- Entrywise sum of two sequences. -/
def valAdd (u v : Val) : Val :=
  List.zipWith (· + ·) u v

/-! ## The operator algebra

`Operator.identity` is the `IdentityMatrix` class of `jacobian.py`;
`Operator.dense A` is a plain numpy array; `Operator.scalarId c` stands for
the sparse value `SimpleSparse({(0, 0): c})` (`c` times the identity), the
only sparse values `jacobian.py` itself ever constructs.  `SimpleSparse`
lives in `simple_block.py`, outside the verified sources; its algebra on
these values is modelled from the spec's operator contract. -/

inductive Operator : Type where
  | identity : Operator
  | scalarId : Rat → Operator
  | dense : Mat → Operator
deriving DecidableEq, Repr

/-- `copy.deepcopy`: on pure values, a deep copy is the (structurally equal)
value itself; non-aliasing is automatic in a value semantics. -/
def deepcopy (x : Operator) : Operator := x

namespace Operator

/-- Operator composition `@`.  `IdentityMatrix.__matmul__` /`__rmatmul__`
return `copy.deepcopy(other)`; the remaining cases are ordinary dense
multiplication, with `scalarId` acting as a scalar (modelled from the spec:
sparse values compose with dense arrays by ordinary operator composition). -/
def matmul : Operator → Operator → Operator
  | identity, x => deepcopy x
  | x, identity => deepcopy x
  | scalarId c, scalarId d => scalarId (c * d)
  | scalarId c, dense B => dense (scalMul c B)
  | dense A, scalarId c => dense (scalMul c A)
  | dense A, dense B => dense (matMul A B)

/-- Operator addition `+`.  `IdentityMatrix.__add__`/`__radd__` first
materialize identity as `self.sparse() = SimpleSparse({(0, 0): 1})`
(modelled from the spec: identity only participates in addition through its
general sparse form); dense arrays add entrywise. -/
def add : Operator → Operator → Operator
  | identity, identity => scalarId (1 + 1)
  | identity, scalarId d => scalarId (1 + d)
  | identity, dense B => dense (matAdd (scalMul 1 (eye B.length)) B)
  | scalarId c, identity => scalarId (c + 1)
  | dense A, identity => dense (matAdd A (scalMul 1 (eye A.length)))
  | scalarId c, scalarId d => scalarId (c + d)
  | scalarId c, dense B => dense (matAdd (scalMul c (eye B.length)) B)
  | dense A, scalarId c => dense (matAdd A (scalMul c (eye A.length)))
  | dense A, dense B => dense (matAdd A B)

/-- `.matrix(T)` / `make_matrix`: dense `T×T` materialization.
`IdentityMatrix.matrix(T)` is `np.eye(T)`; a dense array is returned as is
(its own shape); `scalarId c` materializes to `c·eye(T)` (modelled from the
spec's `to_matrix` contract for sparse operators). -/
def matrix : Operator → Nat → Mat
  | identity, T => eye T
  | scalarId c, T => scalMul c (eye T)
  | dense A, _ => A

/-- Operator applied to a length-T sequence, `jac @ v`.
`IdentityMatrix @ v` is `deepcopy(v) = v`; dense is `matVec`; `scalarId c`
scales the sequence. -/
def apply : Operator → Val → Val
  | identity, v => v
  | scalarId c, v => v.map (fun x => c * x)
  | dense A, v => matVec A v

end Operator

/-- `make_matrix(A, T)`: if `A` is not an outright ndarray, call its
`.matrix(T)` method. -/
def make_matrix (A : Operator) (T : Nat) : Mat :=
  match A with
  | Operator.dense M => M
  | a => a.matrix T

/-! ## Jacobian dictionaries and the chain rule (`compose_jacobians`, `chain_jacobians`) -/

/-- A Jacobian dictionary: output name → input name → operator. -/
abbrev JacDict : Type := Dict (Dict Operator)

/-- One accumulation step of `compose_jacobians`: `jacdict[output][inp] += jac`
if `inp` is already bound, else `jacdict[output][inp] = jac` (here acting on
the inner dict). -/
def addContribution (inner : Dict Operator) (inp : String) (v : Operator) :
    Dict Operator :=
  match dget inner inp with
  | some old => dset inner inp (Operator.add old v)
  | none => dset inner inp v

/-- The two inner loops of `compose_jacobians` for a single `output`: for each
`(middle, jac1)` of `innerjac1` and each `(inp, jac2)` of
`jacdict2.get(middle, {})`, accumulate `jac1 @ jac2` at key `inp`. -/
def composedRow (jacdict2 : JacDict) (innerjac1 : Dict Operator) : Dict Operator :=
  innerjac1.foldl
    (fun inner q =>
      (dgetD jacdict2 q.1 []).foldl
        (fun inner r => addContribution inner r.1 (Operator.matmul q.2 r.2))
        inner)
    []

/-- `compose_jacobians(jacdict2, jacdict1)`: chain rule.  For every
`(output, innerjac1)` of `jacdict1`, start `jacdict[output] = {}` and run the
two inner accumulation loops. -/
def compose_jacobians (jacdict2 jacdict1 : JacDict) : JacDict :=
  jacdict1.foldl (fun jacdict p => dset jacdict p.1 (composedRow jacdict2 p.2)) []

/-- `{i: {i: IdentityMatrix()} for i in inputs}`. -/
def initial_jacdict (inputs : List String) : JacDict :=
  inputs.foldl (fun d i => dset d i [(i, Operator.identity)]) []

set_option linter.unusedVariables false in
/-- `chain_jacobians(jacdicts, inputs, T)` (the parameter `T` is unused by the
source body as well). -/
def chain_jacobians (jacdicts : List JacDict) (inputs : List String) (T : Nat) :
    JacDict :=
  jacdicts.foldl
    (fun cumulative jacdict => dupdate cumulative (compose_jacobians cumulative jacdict))
    (initial_jacdict inputs)

/-! ## Application to values (`apply_jacobians`) -/

/-- One iteration of the inner loop of `apply_jacobians` for output `myout`
and row pair `q = (myin, jac)`: if `myin in indict`, accumulate
`jac @ indict[myin]` at `outdict[myout]`, else leave `outdict` alone. -/
def applyRowStep (indict : Dict Val) (myout : String) (outdict : Dict Val)
    (q : String × Operator) : Dict Val :=
  match dget indict q.1 with
  | some v =>
    match dget outdict myout with
    | some old => dset outdict myout (valAdd old (q.2.apply v))
    | none => dset outdict myout (q.2.apply v)
  | none => outdict

/-- The inner loop of `apply_jacobians` for one output `myout`. -/
def applyRow (innerjacdict : Dict Operator) (myout : String) (indict : Dict Val)
    (outdict : Dict Val) : Dict Val :=
  innerjacdict.foldl (fun outdict q => applyRowStep indict myout outdict q) outdict

/-- `apply_jacobians(jacdict, indict)`. -/
def apply_jacobians (jacdict : JacDict) (indict : Dict Val) : Dict Val :=
  jacdict.foldl (fun outdict p => applyRow p.2 p.1 indict outdict) []

/-! ## Packing / unpacking (`pack_jacobians`, `unpack_jacobians`) -/

/-- numpy row-slice assignment `row[c0 : c0 + len(brow)] = brow`. -/
def setSliceRow (row : List Rat) (c0 : Nat) (brow : List Rat) : List Rat :=
  row.take c0 ++ (brow ++ row.drop (c0 + brow.length))

/-- numpy slice assignment `M[r0 : r0 + len(B), c0 : c0 + cols(B)] = B`. -/
def setSlice (M : Mat) (r0 c0 : Nat) (B : Mat) : Mat :=
  M.take r0
    ++ (List.zipWith (fun row brow => setSliceRow row c0 brow) ((M.drop r0).take B.length) B
      ++ M.drop (r0 + B.length))

/-- The value numpy stores when an operator object is slice-assigned into a
`T×T` block of a float array: defined exactly when the operator already is a
dense `T×T` array.  (`pack_jacobians` assigns `subdict.get(...)` directly,
without calling `.matrix`; slice-assigning an `IdentityMatrix` or sparse
object into an ndarray raises.) -/
def Operator.denseBlock? : Operator → Nat → Option Mat
  | Operator.dense A, T => if dims A T T then some A else none
  | _, _ => none

/-- `pack_jacobians(jacdict, inputs, outputs, T)`: lay block `(oIdx, iIdx)` of
an `(nO·T)×(nI·T)` array from `jacdict.get(outputs[oIdx], {}).get(inputs[iIdx],
np.zeros((T, T)))` by slice assignment.  `np.empty` is modelled as `zeros`
(every entry of the result is overwritten).  The result is `none` when a
present entry cannot be slice-assigned (not a dense `T×T` array). -/
def pack_jacobians (jacdict : JacDict) (inputs outputs : List String) (T : Nat) :
    Option Mat :=
  (List.range outputs.length).foldlM
    (fun M oIdx =>
      (List.range inputs.length).foldlM
        (fun M iIdx =>
          match dget (dgetD jacdict (outputs.getD oIdx "") []) (inputs.getD iIdx "") with
          | none => some (setSlice M (T * oIdx) (T * iIdx) (zeros T T))
          | some op => (op.denseBlock? T).map (fun B => setSlice M (T * oIdx) (T * iIdx) B))
        M)
    (zeros (outputs.length * T) (inputs.length * T))

/-- numpy slice read `M[r0 : r0 + T, c0 : c0 + T]`. -/
def subMatrix (M : Mat) (r0 c0 T : Nat) : Mat :=
  ((M.drop r0).take T).map (fun row => (row.drop c0).take T)

/-- `unpack_jacobians(bigjac, inputs, outputs, T)`: slice the flat matrix back
into the nested dictionary form (entries are dense arrays). -/
def unpack_jacobians (bigjac : Mat) (inputs outputs : List String) (T : Nat) :
    JacDict :=
  (List.range outputs.length).foldl
    (fun jacdict oIdx =>
      dset jacdict (outputs.getD oIdx "")
        ((List.range inputs.length).foldl
          (fun inner iIdx =>
            dset inner (inputs.getD iIdx "")
              (Operator.dense (subMatrix bigjac (T * oIdx) (T * iIdx) T)))
          []))
    []

/-! ## Graph construction and topological ordering (`curlyJ_sorted`)

`curlyJ_sorted` accepts simple blocks (class `SimpleBlock` of
`simple_block.py`) or raw Jacobian dictionaries.  `SimpleBlock`, its
evaluator `sim.all_Js` and `utils.topological_sort` live outside the
verified sources and are modelled from the spec below. -/

/-- Modelled from the spec: a simple block (class `SimpleBlock` of
`simple_block.py`, not under the verified sources) has declared ordered input
and output name lists and can produce, via the external evaluator, a local
Jacobian entry for each (output, shocked input) pair; the entries are carried
here as the field `jac`. -/
structure SimpleBlock : Type where
  input_list : List String
  output_list : List String
  jac : String → String → Operator

set_option linter.unusedVariables false in
/-- Modelled from the spec: the external block evaluator `sim.all_Js`
(`simple_block.py`, not under the verified sources) returns a Jacobian
dictionary mapping each declared output of the block to a mapping from each
shocked input to an operator; the steady state `ss` selects the
linearization point, which the model folds into `SimpleBlock.jac`. -/
def all_Js (block : SimpleBlock) (ss : Option (Dict Rat)) (shock_list : List String) :
    JacDict :=
  block.output_list.foldl
    (fun jacdict o =>
      dset jacdict o (shock_list.foldl (fun inner i => dset inner i (block.jac o i)) []))
    []

/-- An element of `block_list`: a `SimpleBlock` or a raw Jacobian dictionary.
(An unrecognized object raises a `ValueError` in the source; the typed
embedding has no third case.) -/
inductive Block : Type where
  | simple : SimpleBlock → Block
  | jacdict : JacDict → Block

/-- The output list of a block (`block.output_list`, or `list(block.keys())`
for a raw Jacobian dictionary). -/
def blockOutputs : Block → List String
  | Block.simple b => b.output_list
  | Block.jacdict d => dkeys d

/-- The input list used in step 2 of `curlyJ_sorted` (`block.input_list`, or
`list(set(i for o in block for i in block[o]))` for a raw dictionary; the
Python `set` dedups in unspecified order, modelled as order-preserving
dedup — step 2 only uses membership). -/
def blockStep2Inputs : Block → List String
  | Block.simple b => b.input_list
  | Block.jacdict d => (d.foldr (fun p acc => dkeys p.2 ++ acc) []).dedup

/-- Python `set.add`: append the element unless already present (the model
keeps sets as duplicate-free lists; only membership is ever used). -/
def insertIfAbsent (l : List String) (x : String) : List String :=
  if x ∈ l then l else l ++ [x]

/-- Step 1 of `curlyJ_sorted`: map each output name to the index of its
producer, failing (`ValueError`) if an output is produced twice. -/
def buildOutmap (block_list : List Block) : Except String (Dict Nat) :=
  (block_list.enum.foldlM
    (fun outmap p =>
      (blockOutputs p.2).foldlM
        (fun outmap o =>
          if dmem o outmap then Except.error (o ++ " is output twice")
          else Except.ok (dset outmap o p.1))
        outmap)
    ([] : Dict Nat))

/-- Step 2 of `curlyJ_sorted`: dependency sets (`dep`) and the `required`
set, collected over each block's step-2 input list: an input that appears in
`outmap` contributes a dependency edge and joins `required`. -/
def buildDeps (block_list : List Block) (outmap : Dict Nat) :
    List (List Nat) × List String :=
  block_list.foldl
    (fun acc block =>
      let step :=
        (blockStep2Inputs block).foldl
          (fun (st : List Nat × List String) i =>
            match dget outmap i with
            | some producer => (st.1 ++ [producer], insertIfAbsent st.2 i)
            | none => st)
          ([], acc.2)
      (acc.1 ++ [step.1], step.2))
    ([], [])

/-- Modelled from the spec: `utils.topological_sort` (module `utils`, not
under the verified sources) takes the dependency map (node `num` depends on
the nodes in `dep num`) and returns an order in which every node appears
after all its dependencies, signalling an error if the graph has a cycle.
Kahn-style: repeatedly emit the first unplaced node whose dependencies are
all placed. -/
def topoGo (n : Nat) (dep : Nat → List Nat) : Nat → List Nat → Except String (List Nat)
  | 0, acc => if acc.length = n then Except.ok acc else Except.error "cycle detected"
  | fuel + 1, acc =>
    if acc.length = n then Except.ok acc
    else
      match (List.range n).find? (fun m => !(acc.contains m) && (dep m).all (fun d => acc.contains d)) with
      | some m => topoGo n dep fuel (acc ++ [m])
      | none => Except.error "cycle detected"

/-- Modelled from the spec: see `topoGo`. -/
def topological_sort (n : Nat) (dep : Nat → List Nat) : Except String (List Nat) :=
  topoGo n dep n []

/-- Step 4 of `curlyJ_sorted` for one block: a simple block is evaluated on
the subset of its declared inputs that are shocks; a raw Jacobian dictionary
is used unchanged. -/
def blockJac (block : Block) (ss : Option (Dict Rat)) (shocks : List String) : JacDict :=
  match block with
  | Block.simple b => all_Js b ss (b.input_list.filter (fun i => shocks.contains i))
  | Block.jacdict d => d

/-- `curlyJ_sorted(block_list, inputs, ss)`: build the output map (step 1),
the dependency sets and `required` (step 2), topologically sort (step 3),
then evaluate the blocks in sorted order against
`shocks = set(inputs) | required` (step 4).  A raised `ValueError` or cycle
error is an `Except.error`. -/
def curlyJ_sorted (block_list : List Block) (inputs : List String)
    (ss : Option (Dict Rat)) : Except String (List JacDict × List String) :=
  match buildOutmap block_list with
  | Except.error e => Except.error e
  | Except.ok outmap =>
    match topological_sort block_list.length
        (fun num => (buildDeps block_list outmap).1.getD num []) with
    | Except.error e => Except.error e
    | Except.ok topsorted =>
      Except.ok
        (topsorted.map (fun num => blockJac (block_list.getD num (Block.jacdict [])) ss
          (inputs ++ (buildDeps block_list outmap).2)),
         (buildDeps block_list outmap).2)

/-! ## The forward accumulation engine (`forward_accumulate`) -/

/-- The two modes of `forward_accumulate`, selected in the source by
`isinstance(inputs, dict)`: a list of input names (derivative mode) or a
dict of input sequences (evaluation mode). -/
inductive FAInputs : Type where
  | names : List String → FAInputs
  | values : Dict Val → FAInputs

/-- The result of `forward_accumulate`: a Jacobian dictionary in derivative
mode, a value dictionary in evaluation mode. -/
inductive FAResult : Type where
  | jac : JacDict → FAResult
  | vals : Dict Val → FAResult
deriving DecidableEq

/-- Projection of a derivative-mode result. -/
def FAResult.jacD : FAResult → JacDict
  | FAResult.jac d => d
  | FAResult.vals _ => []

/-- Projection of an evaluation-mode result. -/
def FAResult.valsD : FAResult → Dict Val
  | FAResult.jac _ => []
  | FAResult.vals d => d

/-- `set(outputs) | set(required)` when both are given, else `None` (the
union is used only through membership and is modelled by concatenation). -/
def fa_alloutputs (outputs required : Option (List String)) : Option (List String) :=
  match outputs, required with
  | some os, some req => some (os ++ req)
  | _, _ => none

/-- `{k: v for k, v in curlyJ.items() if k in alloutputs}` (no filtering when
`alloutputs` is `None`). -/
def prune (alloutputs : Option (List String)) (curlyJ : JacDict) : JacDict :=
  match alloutputs with
  | some ao => curlyJ.filter (fun p => ao.contains p.1)
  | none => curlyJ

/-- The accumulation loop of `forward_accumulate` in derivative mode. -/
def fa_jac_accum (curlyJs : List JacDict) (ins : List String)
    (alloutputs : Option (List String)) : JacDict :=
  curlyJs.foldl
    (fun out curlyJ => dupdate out (compose_jacobians out (prune alloutputs curlyJ)))
    (initial_jacdict ins)

/-- The accumulation loop of `forward_accumulate` in evaluation mode
(starting from `out = inputs.copy()`). -/
def fa_val_accum (curlyJs : List JacDict) (indict : Dict Val)
    (alloutputs : Option (List String)) : Dict Val :=
  curlyJs.foldl
    (fun out curlyJ => dupdate out (apply_jacobians (prune alloutputs curlyJ) out))
    indict

/-- `{k: out[k] for k in outputs if k in out}`. -/
def restrictTo {α : Type} (outputs : List String) (out : Dict α) : Dict α :=
  outputs.foldl
    (fun d k =>
      match dget out k with
      | some v => dset d k v
      | none => d)
    []

/-- `forward_accumulate(curlyJs, inputs, outputs, required)`. -/
def forward_accumulate (curlyJs : List JacDict) (inputs : FAInputs)
    (outputs required : Option (List String)) : FAResult :=
  let alloutputs := fa_alloutputs outputs required
  match inputs with
  | FAInputs.names ins =>
    let out := fa_jac_accum curlyJs ins alloutputs
    match outputs with
    | some os => FAResult.jac (restrictTo os out)
    | none => FAResult.jac (out.filter (fun p => !(ins.contains p.1)))
  | FAInputs.values indict =>
    let out := fa_val_accum curlyJs indict alloutputs
    match outputs with
    | some os => FAResult.vals (restrictTo os out)
    | none => FAResult.vals out

/-! ## Heap model of evaluation mode (for the frame property)

Python dictionaries are mutable heap objects; `forward_accumulate` receives a
*reference* to the caller's `inputs` dict.  To state that the call leaves the
caller's dictionary untouched, evaluation mode is re-run here over an
explicit heap: a list of dictionary cells addressed by position.  The
function reads the argument cell, allocates a fresh cell for
`out = inputs.copy()`, and every later write (`out.update(...)`) targets the
fresh cell, mirroring the source line by line.  `apply_jacobians` only reads
`indict`, so it needs no heap. -/

def fa_heap_eval (curlyJs : List JacDict) (heap : List (Dict Val)) (addr : Nat)
    (outputs required : Option (List String)) : List (Dict Val) × Dict Val :=
  let alloutputs := fa_alloutputs outputs required
  let outAddr := heap.length
  let heap1 := heap ++ [heap.getD addr []]
  let heap2 := curlyJs.foldl
    (fun h curlyJ =>
      let out := h.getD outAddr []
      h.set outAddr (dupdate out (apply_jacobians (prune alloutputs curlyJ) out)))
    heap1
  match outputs with
  | some os => (heap2, restrictTo os (heap2.getD outAddr []))
  | none => (heap2, heap2.getD outAddr [])

/-! ## Accumulation lemmas for `compose_jacobians` (claim C1) -/

/-- Fold one more contribution into an optional running total (the
`+=`-or-assign pattern of the source, at the level of a single entry). -/
def addOpt (acc : Option Operator) (v : Operator) : Option Operator :=
  match acc with
  | some x => some (Operator.add x v)
  | none => some v

/-- The ordered list of contributions `J1[o][m] @ J2[m][i]` to entry
`(o, i)` of the composition: one for each pair `(m, jac1)` of `innerjac1`
(in dictionary order) such that `jacdict2` has a row for the middle
variable `m` containing the input `i`. -/
def contributions (jacdict2 : JacDict) (innerjac1 : Dict Operator) (i : String) :
    List Operator :=
  innerjac1.filterMap
    (fun q => (dget (dgetD jacdict2 q.1 []) i).map (fun jac2 => Operator.matmul q.2 jac2))

/-- The sum of an ordered list of contributions; the empty sum is an absent
entry (implicit zero), never a materialized zero operator. -/
def opSum : List Operator → Option Operator
  | [] => none
  | v :: vs => some (vs.foldl Operator.add v)

theorem addContribution_get_self (inner : Dict Operator) (i : String) (v : Operator) :
    dget (addContribution inner i v) i = addOpt (dget inner i) v := by
  unfold addContribution addOpt
  cases h : dget inner i with
  | some old => simp [dget_dset_self]
  | none => simp [dget_dset_self]

theorem addContribution_get_ne (inner : Dict Operator) (i j : String) (v : Operator)
    (h : i ≠ j) : dget (addContribution inner i v) j = dget inner j := by
  unfold addContribution
  cases dget inner i with
  | some old => exact dget_dset_ne _ _ _ _ h
  | none => exact dget_dset_ne _ _ _ _ h

theorem foldl_addOpt_some (l : List Operator) (x : Operator) :
    l.foldl addOpt (some x) = some (l.foldl Operator.add x) := by
  induction l generalizing x with
  | nil => rfl
  | cons v vs ih => simp [addOpt, ih]

theorem opSum_eq_foldl (l : List Operator) : opSum l = l.foldl addOpt none := by
  cases l with
  | nil => rfl
  | cons v vs => simp [opSum, addOpt, foldl_addOpt_some]

/-- Folding a list of keyed contributions: the entry at `i` accumulates
exactly the values whose key is `i`, in order. -/
theorem pairsFold_get (ps : List (String × Operator)) (inner : Dict Operator)
    (i : String) :
    dget (ps.foldl (fun d q => addContribution d q.1 q.2) inner) i
      = ((ps.filter (fun q => q.1 == i)).map (·.2)).foldl addOpt (dget inner i) := by
  induction ps generalizing inner with
  | nil => rfl
  | cons q ps ih =>
    simp only [List.foldl_cons, List.filter_cons]
    by_cases hq : q.1 = i
    · rw [if_pos (by simpa using hq)]
      simp only [List.map_cons, List.foldl_cons]
      rw [ih, hq, addContribution_get_self]
    · rw [if_neg (by simpa using hq)]
      rw [ih, addContribution_get_ne _ _ _ _ hq]

/-- Folding over a flattened list of lists. -/
theorem foldl_flatMap {α β γ : Type} (l : List α) (f : α → List β)
    (g : γ → β → γ) (a : γ) :
    (l.flatMap f).foldl g a = l.foldl (fun acc x => (f x).foldl g acc) a := by
  induction l generalizing a with
  | nil => rfl
  | cons x l ih => simp [List.flatMap_cons, List.foldl_append, ih]

/-- The flattened, keyed contribution list traversed by the two inner loops
of `compose_jacobians`. -/
def flatPairs (jacdict2 : JacDict) (innerjac1 : Dict Operator) :
    List (String × Operator) :=
  innerjac1.flatMap
    (fun q => (dgetD jacdict2 q.1 []).map (fun r => (r.1, Operator.matmul q.2 r.2)))

theorem composedRow_eq_pairsFold (jacdict2 : JacDict) (innerjac1 : Dict Operator) :
    composedRow jacdict2 innerjac1
      = (flatPairs jacdict2 innerjac1).foldl (fun d q => addContribution d q.1 q.2) [] := by
  unfold composedRow flatPairs
  rw [foldl_flatMap]
  congr 1
  funext inner q
  rw [List.foldl_map]

/-- In a duplicate-free row, filtering for a key then taking values gives
exactly the looked-up value (as a zero-or-one element list). -/
theorem filter_key_of_nodup {α : Type} (row : Dict α) (i : String) (h : dNodup row) :
    (row.filter (fun r => r.1 == i)).map (·.2) = (dget row i).toList := by
  induction row with
  | nil => rfl
  | cons r row ih =>
    simp only [dNodup, dkeys, List.map_cons, List.nodup_cons] at h
    simp only [List.filter_cons, dget_cons]
    by_cases hr : r.1 = i
    · rw [if_pos (by simpa using hr), if_pos hr]
      simp only [List.map_cons, Option.toList_some]
      have : dget row i = none := by
        apply dget_eq_none_of_not_mem
        intro hm
        exact h.1 (hr ▸ hm)
      have hrow : (row.filter (fun r => r.1 == i)).map (·.2) = [] := by
        rw [ih h.2, this]; rfl
      rw [hrow]
    · rw [if_neg (by simpa using hr), if_neg hr]
      exact ih h.2


theorem dget_mem {α : Type} {d : Dict α} {k : String} {v : α}
    (h : dget d k = some v) : (k, v) ∈ d := by
  induction d with
  | nil => cases h
  | cons p rest ih =>
    rw [dget_cons] at h
    by_cases hp : p.1 = k
    · rw [if_pos hp] at h
      injection h with h2
      have hpv : p = (k, v) := Prod.ext hp h2
      rw [← hpv]
      exact List.mem_cons_self _ _
    · rw [if_neg hp] at h
      exact List.mem_cons_of_mem _ (ih h)

theorem flatMap_toList_eq_filterMap {α β : Type} (l : List α) (g : α → Option β) :
    l.flatMap (fun x => (g x).toList) = l.filterMap g := by
  induction l with
  | nil => rfl
  | cons x l ih =>
    rw [List.flatMap_cons, List.filterMap_cons]
    cases g x with
    | none => simpa using ih
    | some v => simpa using ih

theorem flatPairs_filter (jacdict2 : JacDict) (innerjac1 : Dict Operator)
    (i : String) (h2 : ∀ p ∈ jacdict2, dNodup p.2) :
    ((flatPairs jacdict2 innerjac1).filter (fun q => q.1 == i)).map (·.2)
      = contributions jacdict2 innerjac1 i := by
  unfold flatPairs contributions
  rw [List.filter_flatMap, List.map_flatMap]
  rw [← flatMap_toList_eq_filterMap]
  congr 1
  funext q
  have hrow : dNodup (dgetD jacdict2 q.1 []) := by
    unfold dgetD
    cases hq : dget jacdict2 q.1 with
    | none => simp [dNodup, dkeys]
    | some row => simpa using h2 _ (dget_mem hq)
  rw [List.filter_map, List.map_map]
  have hcomp : ((fun p : String × Operator => p.1 == i) ∘
      fun r : String × Operator => (r.1, Operator.matmul q.2 r.2))
        = fun r : String × Operator => r.1 == i := rfl
  rw [hcomp]
  have hmapv : ((·.2) ∘ fun r : String × Operator => (r.1, Operator.matmul q.2 r.2))
      = fun r : String × Operator => Operator.matmul q.2 r.2 := rfl
  rw [hmapv]
  have := filter_key_of_nodup (dgetD jacdict2 q.1 []) i hrow
  calc ((dgetD jacdict2 q.1 []).filter (fun r => r.1 == i)).map
        (fun r => Operator.matmul q.2 r.2)
      = (((dgetD jacdict2 q.1 []).filter (fun r => r.1 == i)).map (·.2)).map
          (Operator.matmul q.2) := by rw [List.map_map]; rfl
    _ = ((dget (dgetD jacdict2 q.1 []) i).toList).map (Operator.matmul q.2) := by rw [this]
    _ = ((dget (dgetD jacdict2 q.1 []) i).map
          (fun jac2 => Operator.matmul q.2 jac2)).toList := by
        cases dget (dgetD jacdict2 q.1 []) i <;> rfl

/-- The entry of a composed row at `i` is the ordered sum of its
contributions. -/
theorem composedRow_get (jacdict2 : JacDict) (innerjac1 : Dict Operator)
    (i : String) (h2 : ∀ p ∈ jacdict2, dNodup p.2) :
    dget (composedRow jacdict2 innerjac1) i
      = opSum (contributions jacdict2 innerjac1 i) := by
  rw [composedRow_eq_pairsFold, pairsFold_get, flatPairs_filter _ _ _ h2,
    opSum_eq_foldl]
  rfl

theorem dget_eq_find? {α : Type} (d : Dict α) (k : String) :
    dget d k = (d.find? (fun p => p.1 == k)).map (·.2) := by
  induction d with
  | nil => rfl
  | cons p rest ih =>
    rw [dget_cons, List.find?_cons]
    by_cases hp : p.1 = k
    · simp [hp]
    · simp only [beq_eq_false_iff_ne.2 hp]
      rw [if_neg hp]
      exact ih

/-- Folding `dset` writes whose keys all differ from `k` leaves the entry at
`k` unchanged. -/
theorem foldl_dset_get_of_forall_ne {ι β : Type} (l : List ι) (key : ι → String)
    (g : ι → β) (d0 : Dict β) (k : String) (h : ∀ x ∈ l, key x ≠ k) :
    dget (l.foldl (fun d x => dset d (key x) (g x)) d0) k = dget d0 k := by
  induction l generalizing d0 with
  | nil => rfl
  | cons x l ih =>
    simp only [List.foldl_cons]
    rw [ih _ (fun y hy => h y (List.mem_cons_of_mem _ hy)),
      dget_dset_ne _ _ _ _ (h x (List.mem_cons_self _ _))]

/-- Folding `dset` writes with pairwise distinct keys: reading key `k`
retrieves the value written for `k`, or falls through to the initial dict. -/
theorem foldl_dset_get {ι β : Type} (l : List ι) (key : ι → String) (g : ι → β)
    (d0 : Dict β) (k : String) (hnd : (l.map key).Nodup) :
    dget (l.foldl (fun d x => dset d (key x) (g x)) d0) k
      = match l.find? (fun x => key x == k) with
        | some x => some (g x)
        | none => dget d0 k := by
  induction l generalizing d0 with
  | nil => rfl
  | cons x l ih =>
    simp only [List.map_cons, List.nodup_cons] at hnd
    simp only [List.foldl_cons, List.find?_cons]
    by_cases hx : key x = k
    · simp only [hx, beq_self_eq_true]
      rw [foldl_dset_get_of_forall_ne]
      · rw [dget_dset_self]
      · intro y hy he
        apply hnd.1
        rw [hx, ← he]
        exact List.mem_map_of_mem key hy
    · simp only [beq_eq_false_iff_ne.2 hx]
      rw [ih _ hnd.2]
      cases List.find? (fun x => key x == k) l with
      | some y => rfl
      | none => exact dget_dset_ne _ _ _ _ hx

/-- The outer loop of `compose_jacobians`: over a duplicate-free `jacdict1`,
the result binds exactly the outputs of `jacdict1`, each to its composed
row. -/
theorem compose_jacobians_get (jacdict2 jacdict1 : JacDict) (h1 : dNodup jacdict1)
    (o : String) :
    dget (compose_jacobians jacdict2 jacdict1) o
      = (dget jacdict1 o).map (composedRow jacdict2) := by
  unfold compose_jacobians
  rw [foldl_dset_get jacdict1 (·.1) (fun p => composedRow jacdict2 p.2) [] o h1,
    dget_eq_find? jacdict1 o]
  cases jacdict1.find? (fun p => p.1 == o) with
  | none => rfl
  | some p => rfl

/-- Nested read `jacdict[o][i]`, absent at either level giving `none`. -/
def dget2 {α : Type} (d : Dict (Dict α)) (o i : String) : Option α :=
  (dget d o).bind (fun inner => dget inner i)

/-- C1: `compose_jacobians(J2, J1)` maps each output `o` of `J1` (and no
other key) and each input `i` to the sum, over exactly the middle variables
`m` of `J1[o]` that are outer keys of `J2` (with an entry for `i`), of
`J1[o][m] @ J2[m][i]`; a middle variable absent from `J2` contributes
nothing and raises no error, and an empty sum is an absent entry. -/
theorem compose_jacobians_chain_rule (jacdict2 jacdict1 : JacDict)
    (h1 : dNodup jacdict1) (h2 : ∀ p ∈ jacdict2, dNodup p.2) :
    (∀ o, dmem o (compose_jacobians jacdict2 jacdict1) ↔ dmem o jacdict1)
    ∧ (∀ o i, dget2 (compose_jacobians jacdict2 jacdict1) o i
        = (dget jacdict1 o).bind
            (fun innerjac1 => opSum (contributions jacdict2 innerjac1 i))) := by
  constructor
  · intro o
    rw [dmem_iff_isSome, dmem_iff_isSome, compose_jacobians_get _ _ h1]
    cases dget jacdict1 o with
    | none => simp
    | some inner => simp
  · intro o i
    unfold dget2
    rw [compose_jacobians_get _ _ h1]
    cases dget jacdict1 o with
    | none => rfl
    | some innerjac1 =>
      show dget (composedRow jacdict2 innerjac1) i
        = opSum (contributions jacdict2 innerjac1 i)
      exact composedRow_get _ _ _ h2

/-- Witness for C1 at a concrete instance: two middle variables, one of them
(`"absent"`) missing from the accumulator dictionary. -/
theorem compose_jacobians_chain_rule_witness :
    (∀ o, dmem o (compose_jacobians
        [("m", [("x", Operator.dense [[1]]), ("w", Operator.dense [[2]])]),
         ("n", [("x", Operator.dense [[5]])])]
        [("o", [("m", Operator.dense [[10]]), ("n", Operator.dense [[100]]),
                ("absent", Operator.dense [[7]])])])
      ↔ dmem o [("o", [("m", Operator.dense [[10]]), ("n", Operator.dense [[100]]),
                ("absent", Operator.dense [[7]])])])
    ∧ (∀ o i, dget2 (compose_jacobians
        [("m", [("x", Operator.dense [[1]]), ("w", Operator.dense [[2]])]),
         ("n", [("x", Operator.dense [[5]])])]
        [("o", [("m", Operator.dense [[10]]), ("n", Operator.dense [[100]]),
                ("absent", Operator.dense [[7]])])]) o i
        = (dget [("o", [("m", Operator.dense [[10]]), ("n", Operator.dense [[100]]),
                ("absent", Operator.dense [[7]])])] o).bind
            (fun innerjac1 => opSum (contributions
              [("m", [("x", Operator.dense [[1]]), ("w", Operator.dense [[2]])]),
               ("n", [("x", Operator.dense [[5]])])] innerjac1 i))) :=
  compose_jacobians_chain_rule _ _ (by decide) (by decide)

/-! ## Structure of `chain_jacobians` (claims C2, C5) -/

theorem dmem_foldl_dset {ι β : Type} (l : List ι) (key : ι → String) (g : ι → β)
    (d0 : Dict β) (k : String) :
    dmem k (l.foldl (fun d x => dset d (key x) (g x)) d0)
      ↔ dmem k d0 ∨ ∃ x ∈ l, key x = k := by
  induction l generalizing d0 with
  | nil => simp
  | cons x l ih =>
    simp only [List.foldl_cons, ih, dmem_dset, List.mem_cons]
    constructor
    · rintro ((rfl | hd) | ⟨y, hy, rfl⟩)
      · exact Or.inr ⟨x, Or.inl rfl, rfl⟩
      · exact Or.inl hd
      · exact Or.inr ⟨y, Or.inr hy, rfl⟩
    · rintro (hd | ⟨y, rfl | hy, rfl⟩)
      · exact Or.inl (Or.inr hd)
      · exact Or.inl (Or.inl rfl)
      · exact Or.inr ⟨y, hy, rfl⟩

/-- The outer keys of a composition are exactly the outputs of the inner
dictionary (every output is bound, even to an empty row). -/
theorem dmem_compose_jacobians (jacdict2 jacdict1 : JacDict) (o : String) :
    dmem o (compose_jacobians jacdict2 jacdict1) ↔ dmem o jacdict1 := by
  unfold compose_jacobians
  rw [dmem_foldl_dset jacdict1 (·.1) (fun p => composedRow jacdict2 p.2) [] o]
  simp [dmem, dkeys, List.mem_map]

/-- A fold of merge-compose steps over dictionaries none of which produces
output `k` leaves the accumulator's entry at `k` unchanged. -/
theorem chain_fold_preserve (l : List JacDict) (acc : JacDict) (k : String)
    (h : ∀ jd ∈ l, ¬ dmem k jd) :
    dget (l.foldl (fun cumulative jacdict =>
        dupdate cumulative (compose_jacobians cumulative jacdict)) acc) k
      = dget acc k := by
  induction l generalizing acc with
  | nil => rfl
  | cons jd rest ih =>
    simp only [List.foldl_cons]
    rw [ih _ (fun j hj => h j (List.mem_cons_of_mem _ hj))]
    apply dget_dupdate_of_not_mem
    rw [dmem_compose_jacobians]
    exact h jd (List.mem_cons_self _ _)

theorem foldl_dset_keyval_get {β : Type} (l : List String) (v : String → β)
    (d0 : Dict β) (k : String) :
    dget (l.foldl (fun d i => dset d i (v i)) d0) k
      = if k ∈ l then some (v k) else dget d0 k := by
  induction l generalizing d0 with
  | nil => rfl
  | cons i l ih =>
    simp only [List.foldl_cons, List.mem_cons]
    by_cases hl : k ∈ l
    · rw [ih, if_pos hl, if_pos (Or.inr hl)]
    · by_cases hik : k = i
      · rw [ih, if_neg hl, if_pos (Or.inl hik), hik, dget_dset_self]
      · rw [ih, if_neg hl, if_neg (by tauto),
          dget_dset_ne _ _ _ _ (fun he => hik he.symm)]

/-- `initial_jacdict` sends each listed input `i` to `{i: identity}`. -/
theorem initial_jacdict_get (inputs : List String) (k : String) :
    dget (initial_jacdict inputs) k
      = if k ∈ inputs then some [(k, Operator.identity)] else none := by
  unfold initial_jacdict
  rw [foldl_dset_keyval_get inputs (fun i => [(i, Operator.identity)]) [] k]
  rfl

/-- C2 counterexample: with two Jacobian dictionaries producing the same
output name `"y"`, the entry `("y", "x")` produced by the first fold step
(value `[[2]]`) is erased by the second step (`dict.update` rebinds the
key), contradicting "entries produced by earlier steps are never erased by
later steps". -/
theorem chain_jacobians_erase_cex :
    dget2 (chain_jacobians [[("y", [("x", Operator.dense [[2]])])]] ["x"] 1) "y" "x"
      = some (Operator.dense [[2]])
    ∧ dget2 (chain_jacobians
        [[("y", [("x", Operator.dense [[2]])])], [("y", [("x", Operator.dense [[3]])])]]
        ["x"] 1) "y" "x" ≠ some (Operator.dense [[2]]) := by
  decide

/-- C2 (amended): `chain_jacobians` starts from the accumulator sending each
input `i` to `{i: identity}` and folds `compose_jacobians` in list order,
merging each step's composed outputs into the accumulator by key-wise
`dict.update` — keys absent from the step's composition survive unchanged.
Consequently an entry at key `k` is never erased by later steps *whose
dictionaries do not produce output `k`*; a later block producing the same
output name rebinds it (see the counterexample). -/
theorem chain_jacobians_structure (jacdicts1 jacdicts2 : List JacDict)
    (inputs : List String) (T : Nat) (k : String)
    (h : ∀ jd ∈ jacdicts2, ¬ dmem k jd) :
    (∀ k', dget (chain_jacobians [] inputs T) k'
        = if k' ∈ inputs then some [(k', Operator.identity)] else none)
    ∧ (∀ (jds : List JacDict) (jd : JacDict), chain_jacobians (jds ++ [jd]) inputs T
        = dupdate (chain_jacobians jds inputs T)
            (compose_jacobians (chain_jacobians jds inputs T) jd))
    ∧ dget (chain_jacobians (jacdicts1 ++ jacdicts2) inputs T) k
        = dget (chain_jacobians jacdicts1 inputs T) k := by
  refine ⟨fun k' => initial_jacdict_get inputs k', ?_, ?_⟩
  · intro jds jd
    unfold chain_jacobians
    rw [List.foldl_append]
    rfl
  · unfold chain_jacobians
    rw [List.foldl_append]
    exact chain_fold_preserve jacdicts2 _ k h

/-- Witness for C2 (amended) at a concrete instance. -/
theorem chain_jacobians_structure_witness :
    ((∀ k', dget (chain_jacobians [] ["x"] 1) k'
        = if k' ∈ ["x"] then some [(k', Operator.identity)] else none)
    ∧ (∀ (jds : List JacDict) (jd : JacDict), chain_jacobians (jds ++ [jd]) ["x"] 1
        = dupdate (chain_jacobians jds ["x"] 1)
            (compose_jacobians (chain_jacobians jds ["x"] 1) jd))
    ∧ dget (chain_jacobians ([[("y", [("x", Operator.dense [[2]])])]]
          ++ [[("z", [("y", Operator.dense [[3]])])]]) ["x"] 1) "y"
        = dget (chain_jacobians [[("y", [("x", Operator.dense [[2]])])]] ["x"] 1) "y") :=
  chain_jacobians_structure _ _ ["x"] 1 "y" (by decide)

/-- C5 counterexample: `forward_accumulate` in derivative mode with no
pruning is *not* the mapping returned by `chain_jacobians`: the final
filter `k not in inputs` drops the inputs' identity rows, which
`chain_jacobians` keeps. -/
theorem forward_accumulate_chain_cex :
    forward_accumulate [] (FAInputs.names ["x"]) none none
      ≠ FAResult.jac (chain_jacobians [] ["x"] 1) := by
  decide

/-- C5 (amended): in derivative mode with no pruning, `forward_accumulate`
returns exactly `chain_jacobians` of the same list and inputs (any horizon —
the parameter is unused) restricted to the keys outside the input list. -/
theorem forward_accumulate_eq_chain (curlyJs : List JacDict) (ins : List String)
    (T : Nat) :
    forward_accumulate curlyJs (FAInputs.names ins) none none
      = FAResult.jac ((chain_jacobians curlyJs ins T).filter
          (fun p => !(ins.contains p.1))) :=
  rfl

/-! ## Application to values (claim C6) -/

/-- Fold one more sequence contribution into an optional running total. -/
def addOptV (acc : Option Val) (v : Val) : Option Val :=
  match acc with
  | some x => some (valAdd x v)
  | none => some v

/-- The ordered contributions `jac @ indict[myin]` to output `myout`: one for
each pair `(myin, jac)` of the row whose input is present in `indict`. -/
def valContributions (innerjacdict : Dict Operator) (indict : Dict Val) : List Val :=
  innerjacdict.filterMap (fun q => (dget indict q.1).map (fun v => q.2.apply v))

/-- Sum of an ordered list of sequence contributions; the empty sum is an
absent entry, not a zero sequence. -/
def valSum : List Val → Option Val
  | [] => none
  | v :: vs => some (vs.foldl valAdd v)

theorem foldl_addOptV_some (l : List Val) (x : Val) :
    l.foldl addOptV (some x) = some (l.foldl valAdd x) := by
  induction l generalizing x with
  | nil => rfl
  | cons v vs ih => simp [addOptV, ih]

theorem valSum_eq_foldl (l : List Val) : valSum l = l.foldl addOptV none := by
  cases l with
  | nil => rfl
  | cons v vs => simp [valSum, addOptV, foldl_addOptV_some]

theorem applyRowStep_of_absent (indict : Dict Val) (myout : String)
    (outdict : Dict Val) (q : String × Operator) (hv : dget indict q.1 = none) :
    applyRowStep indict myout outdict q = outdict := by
  unfold applyRowStep
  rw [hv]

theorem applyRowStep_get_self_some (indict : Dict Val) (myout : String)
    (outdict : Dict Val) (q : String × Operator) (v : Val)
    (hv : dget indict q.1 = some v) :
    dget (applyRowStep indict myout outdict q) myout
      = addOptV (dget outdict myout) (q.2.apply v) := by
  unfold applyRowStep addOptV
  rw [hv]
  cases ho : dget outdict myout with
  | some old =>
    show dget (dset outdict myout (valAdd old (q.2.apply v))) myout
      = some (valAdd old (q.2.apply v))
    exact dget_dset_self _ _ _
  | none =>
    show dget (dset outdict myout (q.2.apply v)) myout = some (q.2.apply v)
    exact dget_dset_self _ _ _

theorem applyRowStep_get_ne (indict : Dict Val) (myout : String)
    (outdict : Dict Val) (q : String × Operator) (k : String) (h : myout ≠ k) :
    dget (applyRowStep indict myout outdict q) k = dget outdict k := by
  unfold applyRowStep
  cases dget indict q.1 with
  | none => rfl
  | some v =>
    cases dget outdict myout with
    | some old => exact dget_dset_ne _ _ _ _ h
    | none => exact dget_dset_ne _ _ _ _ h

theorem applyRow_get_ne (innerjacdict : Dict Operator) (myout : String)
    (indict : Dict Val) (outdict : Dict Val) (k : String) (h : myout ≠ k) :
    dget (applyRow innerjacdict myout indict outdict) k = dget outdict k := by
  induction innerjacdict generalizing outdict with
  | nil => rfl
  | cons q rest ih =>
    have step : applyRow (q :: rest) myout indict outdict
        = applyRow rest myout indict (applyRowStep indict myout outdict q) := rfl
    rw [step, ih _, applyRowStep_get_ne _ _ _ _ _ h]

theorem applyRow_get_self (innerjacdict : Dict Operator) (myout : String)
    (indict : Dict Val) (outdict : Dict Val) :
    dget (applyRow innerjacdict myout indict outdict) myout
      = (valContributions innerjacdict indict).foldl addOptV (dget outdict myout) := by
  induction innerjacdict generalizing outdict with
  | nil => rfl
  | cons q rest ih =>
    have step : applyRow (q :: rest) myout indict outdict
        = applyRow rest myout indict (applyRowStep indict myout outdict q) := rfl
    rw [step, ih _]
    unfold valContributions
    rw [List.filterMap_cons]
    cases hv : dget indict q.1 with
    | none =>
      rw [applyRowStep_of_absent _ _ _ _ hv]
      rfl
    | some v =>
      rw [applyRowStep_get_self_some _ _ _ _ _ hv]
      simp only [Option.map_some']
      rfl

theorem apply_fold_preserve (l : List (String × Dict Operator)) (indict : Dict Val)
    (outdict : Dict Val) (o : String) (h : ∀ q ∈ l, q.1 ≠ o) :
    dget (l.foldl (fun od p => applyRow p.2 p.1 indict od) outdict) o
      = dget outdict o := by
  induction l generalizing outdict with
  | nil => rfl
  | cons p l ih =>
    simp only [List.foldl_cons]
    rw [ih _ (fun q hq => h q (List.mem_cons_of_mem _ hq)),
      applyRow_get_ne _ _ _ _ _ (h p (List.mem_cons_self _ _))]

theorem apply_fold_get (l : List (String × Dict Operator)) (indict : Dict Val)
    (outdict : Dict Val) (o : String) (hnd : (l.map (·.1)).Nodup) :
    dget (l.foldl (fun od p => applyRow p.2 p.1 indict od) outdict) o
      = match l.find? (fun p => p.1 == o) with
        | some p => (valContributions p.2 indict).foldl addOptV (dget outdict o)
        | none => dget outdict o := by
  induction l generalizing outdict with
  | nil => rfl
  | cons p l ih =>
    simp only [List.map_cons, List.nodup_cons] at hnd
    simp only [List.foldl_cons, List.find?_cons]
    by_cases hp : p.1 = o
    · simp only [hp, beq_self_eq_true]
      rw [apply_fold_preserve]
      · rw [hp] at *
        exact applyRow_get_self _ _ _ _
      · intro q hq he
        apply hnd.1
        rw [hp, ← he]
        exact List.mem_map_of_mem (·.1) hq
    · simp only [beq_eq_false_iff_ne.2 hp]
      rw [ih _ hnd.2]
      cases List.find? (fun p => p.1 == o) l with
      | some q => rw [applyRow_get_ne _ _ _ _ _ hp]
      | none => exact applyRow_get_ne _ _ _ _ _ hp

/-- C6: `apply_jacobians` binds each output `o` (of a duplicate-free Jacobian
dictionary) that has at least one inner key present in the value dictionary
to the ordered sum of `jacdict[o][m] @ indict[m]` over exactly those present
`m`; an output with no matching input is omitted entirely (never bound to a
zero value), and a missing input never raises an error. -/
theorem apply_jacobians_spec (jacdict : JacDict) (indict : Dict Val)
    (hnd : dNodup jacdict) :
    (∀ o, dget (apply_jacobians jacdict indict) o
        = (dget jacdict o).bind
            (fun innerjacdict => valSum (valContributions innerjacdict indict)))
    ∧ (∀ o, dmem o (apply_jacobians jacdict indict)
        ↔ ∃ innerjacdict, dget jacdict o = some innerjacdict
            ∧ valContributions innerjacdict indict ≠ []) := by
  have main : ∀ o, dget (apply_jacobians jacdict indict) o
      = (dget jacdict o).bind
          (fun innerjacdict => valSum (valContributions innerjacdict indict)) := by
    intro o
    unfold apply_jacobians
    rw [apply_fold_get jacdict indict [] o hnd, dget_eq_find? jacdict o]
    cases jacdict.find? (fun p => p.1 == o) with
    | none => rfl
    | some p =>
      show (valContributions p.2 indict).foldl addOptV (dget [] o) = _
      rw [show dget ([] : Dict Val) o = none from rfl, ← valSum_eq_foldl]
      rfl
  refine ⟨main, fun o => ?_⟩
  rw [dmem_iff_isSome, main o]
  cases h : dget jacdict o with
  | none => simp
  | some inner =>
    rw [show (some inner).bind (fun innerjacdict =>
        valSum (valContributions innerjacdict indict))
      = valSum (valContributions inner indict) from rfl]
    cases hc : valContributions inner indict with
    | nil => simp [valSum, hc]
    | cons v vs => simp [valSum, hc]

/-- Witness for C6 at a concrete instance: output `"z"` has a present input
(`"x"`) and an absent one; output `"w"` has only absent inputs and is
omitted from the result. -/
theorem apply_jacobians_spec_witness :
    (∀ o, dget (apply_jacobians
        [("z", [("x", Operator.dense [[2, 0], [0, 2]]), ("miss", Operator.identity)]),
         ("w", [("gone", Operator.identity)])]
        [("x", [1, 1])]) o
        = (dget [("z", [("x", Operator.dense [[2, 0], [0, 2]]), ("miss", Operator.identity)]),
             ("w", [("gone", Operator.identity)])] o).bind
            (fun innerjacdict => valSum (valContributions innerjacdict [("x", [1, 1])])))
    ∧ (∀ o, dmem o (apply_jacobians
        [("z", [("x", Operator.dense [[2, 0], [0, 2]]), ("miss", Operator.identity)]),
         ("w", [("gone", Operator.identity)])]
        [("x", [1, 1])])
        ↔ ∃ innerjacdict, dget
            [("z", [("x", Operator.dense [[2, 0], [0, 2]]), ("miss", Operator.identity)]),
             ("w", [("gone", Operator.identity)])] o = some innerjacdict
            ∧ valContributions innerjacdict [("x", [1, 1])] ≠ []) :=
  apply_jacobians_spec _ _ (by decide)

/-! ## Result filtering in `forward_accumulate` (claim C4) -/

theorem dmem_restrictTo {α : Type} (outputs : List String) (out : Dict α)
    (k : String) :
    dmem k (restrictTo outputs out) ↔ k ∈ outputs ∧ dmem k out := by
  have gen : ∀ (os : List String) (d0 : Dict α),
      dmem k (os.foldl (fun d k' =>
          match dget out k' with
          | some v => dset d k' v
          | none => d) d0)
        ↔ dmem k d0 ∨ (k ∈ os ∧ dmem k out) := by
    intro os
    induction os with
    | nil => simp
    | cons o os ih =>
      intro d0
      simp only [List.foldl_cons, List.mem_cons]
      cases ho : dget out o with
      | some v =>
        rw [ih]
        rw [dmem_dset]
        have hmo : dmem o out := by
          rw [dmem_iff_isSome, ho]; rfl
        constructor
        · rintro ((rfl | hd) | ⟨hos, hout⟩)
          · exact Or.inr ⟨Or.inl rfl, hmo⟩
          · exact Or.inl hd
          · exact Or.inr ⟨Or.inr hos, hout⟩
        · rintro (hd | ⟨rfl | hos, hout⟩)
          · exact Or.inl (Or.inr hd)
          · exact Or.inl (Or.inl rfl)
          · exact Or.inr ⟨hos, hout⟩
      | none =>
        rw [ih]
        constructor
        · rintro (hd | ⟨hos, hout⟩)
          · exact Or.inl hd
          · exact Or.inr ⟨Or.inr hos, hout⟩
        · rintro (hd | ⟨rfl | hos, hout⟩)
          · exact Or.inl hd
          · rw [dmem_iff_isSome, ho] at hout
            cases hout
          · exact Or.inr ⟨hos, hout⟩
  rw [show restrictTo outputs out = outputs.foldl (fun d k' =>
      match dget out k' with
      | some v => dset d k' v
      | none => d) [] from rfl, gen]
  simp [dmem, dkeys]

theorem not_dmem_filter_inputs {α : Type} (d : Dict α) (ins : List String)
    (k : String) (h : k ∈ ins) :
    ¬ dmem k (d.filter (fun p => !(ins.contains p.1))) := by
  intro hm
  unfold dmem dkeys at hm
  rw [List.mem_map] at hm
  obtain ⟨p, hp, rfl⟩ := hm
  rw [List.mem_filter] at hp
  have h2 := hp.2
  rw [Bool.not_eq_true'] at h2
  rw [show (ins.contains p.1 = false) ↔ ¬ p.1 ∈ ins by
    simp [List.contains_iff_exists_mem_beq, beq_iff_eq]] at h2
  exact h2 h

theorem dmem_fa_val_accum (curlyJs : List JacDict) (indict : Dict Val)
    (alloutputs : Option (List String)) (k : String) (h : dmem k indict) :
    dmem k (fa_val_accum curlyJs indict alloutputs) := by
  unfold fa_val_accum
  induction curlyJs generalizing indict with
  | nil => exact h
  | cons curlyJ rest ih =>
    simp only [List.foldl_cons]
    exact ih _ ((dmem_dupdate _ _ _).2 (Or.inl h))

/-- C4: with an `outputs` collection supplied, the result's key set is
exactly the supplied outputs present in the final accumulator (never-produced
names silently omitted, no error), in either mode; with no `outputs`, in
derivative mode every name of the exogenous input list is excluded, while in
evaluation mode the full accumulator — echoed-through input keys included —
is returned. -/
theorem forward_accumulate_filtering (curlyJs : List JacDict)
    (req : Option (List String)) :
    (∀ ins os k,
      dmem k ((forward_accumulate curlyJs (FAInputs.names ins) (some os) req).jacD)
        ↔ k ∈ os ∧ dmem k (fa_jac_accum curlyJs ins (fa_alloutputs (some os) req)))
    ∧ (∀ indict os k,
      dmem k ((forward_accumulate curlyJs (FAInputs.values indict) (some os) req).valsD)
        ↔ k ∈ os ∧ dmem k (fa_val_accum curlyJs indict (fa_alloutputs (some os) req)))
    ∧ (∀ ins k, k ∈ ins →
      ¬ dmem k ((forward_accumulate curlyJs (FAInputs.names ins) none req).jacD))
    ∧ (∀ indict,
      forward_accumulate curlyJs (FAInputs.values indict) none req
        = FAResult.vals (fa_val_accum curlyJs indict (fa_alloutputs none req))
      ∧ ∀ k, dmem k indict →
          dmem k (fa_val_accum curlyJs indict (fa_alloutputs none req))) := by
  refine ⟨?_, ?_, ?_, ?_⟩
  · intro ins os k
    show dmem k (restrictTo os (fa_jac_accum curlyJs ins
      (fa_alloutputs (some os) req))) ↔ _
    exact dmem_restrictTo _ _ _
  · intro indict os k
    show dmem k (restrictTo os (fa_val_accum curlyJs indict
      (fa_alloutputs (some os) req))) ↔ _
    exact dmem_restrictTo _ _ _
  · intro ins k hk
    show ¬ dmem k ((fa_jac_accum curlyJs ins (fa_alloutputs none req)).filter
      (fun p => !(ins.contains p.1)))
    exact not_dmem_filter_inputs _ _ _ hk
  · intro indict
    exact ⟨rfl, fun k hk => dmem_fa_val_accum _ _ _ _ hk⟩

/-- Witness for C4 at a concrete instance: requested outputs `["y", "ghost"]`
where `"ghost"` is never produced, and exclusion of the input `"x"` when no
outputs are requested. -/
theorem forward_accumulate_filtering_witness :
    (dmem "y" ((forward_accumulate [[("y", [("x", Operator.identity)])]]
        (FAInputs.names ["x"]) (some ["y", "ghost"]) (some [])).jacD)
      ↔ "y" ∈ ["y", "ghost"]
        ∧ dmem "y" (fa_jac_accum [[("y", [("x", Operator.identity)])]] ["x"]
            (fa_alloutputs (some ["y", "ghost"]) (some []))))
    ∧ ¬ dmem "x" ((forward_accumulate [[("y", [("x", Operator.identity)])]]
        (FAInputs.names ["x"]) none (some [])).jacD) :=
  ⟨(forward_accumulate_filtering [[("y", [("x", Operator.identity)])]]
      (some [])).1 ["x"] ["y", "ghost"] "y",
   (forward_accumulate_filtering [[("y", [("x", Operator.identity)])]]
      (some [])).2.2.1 ["x"] "x" (by decide)⟩

/-! ## The `required` set of `curlyJ_sorted` (claim C3) -/

theorem insertIfAbsent_mem (l : List String) (x k : String) :
    k ∈ insertIfAbsent l x ↔ k = x ∨ k ∈ l := by
  unfold insertIfAbsent
  by_cases h : x ∈ l
  · rw [if_pos h]
    constructor
    · exact Or.inr
    · rintro (rfl | hk)
      · exact h
      · exact hk
  · rw [if_neg h]
    simp [List.mem_append, or_comm]

/-- The inner fold of step 2 over one block's input list: the `required`
component collects exactly the inputs present in `outmap`. -/
theorem step2_fold_required (inputs : List String) (outmap : Dict Nat)
    (dep0 : List Nat) (req0 : List String) (k : String) :
    k ∈ (inputs.foldl
        (fun (st : List Nat × List String) i =>
          match dget outmap i with
          | some producer => (st.1 ++ [producer], insertIfAbsent st.2 i)
          | none => st)
        (dep0, req0)).2
      ↔ (k ∈ inputs ∧ dmem k outmap) ∨ k ∈ req0 := by
  induction inputs generalizing dep0 req0 with
  | nil => simp
  | cons i rest ih =>
    simp only [List.foldl_cons, List.mem_cons]
    cases ho : dget outmap i with
    | some producer =>
      rw [ih]
      rw [insertIfAbsent_mem]
      have hmo : dmem i outmap := by rw [dmem_iff_isSome, ho]; rfl
      constructor
      · rintro (⟨hr, hm⟩ | (rfl | hq))
        · exact Or.inl ⟨Or.inr hr, hm⟩
        · exact Or.inl ⟨Or.inl rfl, hmo⟩
        · exact Or.inr hq
      · rintro (⟨rfl | hr, hm⟩ | hq)
        · exact Or.inr (Or.inl rfl)
        · exact Or.inl ⟨hr, hm⟩
        · exact Or.inr (Or.inr hq)
    | none =>
      rw [ih]
      constructor
      · rintro (⟨hr, hm⟩ | hq)
        · exact Or.inl ⟨Or.inr hr, hm⟩
        · exact Or.inr hq
      · rintro (⟨rfl | hr, hm⟩ | hq)
        · rw [dmem_iff_isSome, ho] at hm
          cases hm
        · exact Or.inl ⟨hr, hm⟩
        · exact Or.inr hq

/-- Step 2 of `curlyJ_sorted`: membership in `required` is exactly "declared
input of some block that is produced (appears in `outmap`)". -/
theorem buildDeps_required (block_list : List Block) (outmap : Dict Nat)
    (k : String) :
    k ∈ (buildDeps block_list outmap).2
      ↔ (∃ b ∈ block_list, k ∈ blockStep2Inputs b) ∧ dmem k outmap := by
  have gen : ∀ (l : List Block) (deps0 : List (List Nat)) (req0 : List String),
      k ∈ (l.foldl
          (fun acc block =>
            let step :=
              (blockStep2Inputs block).foldl
                (fun (st : List Nat × List String) i =>
                  match dget outmap i with
                  | some producer => (st.1 ++ [producer], insertIfAbsent st.2 i)
                  | none => st)
                ([], acc.2)
            (acc.1 ++ [step.1], step.2))
          (deps0, req0)).2
        ↔ ((∃ b ∈ l, k ∈ blockStep2Inputs b) ∧ dmem k outmap) ∨ k ∈ req0 := by
    intro l
    induction l with
    | nil => simp
    | cons b rest ih =>
      intro deps0 req0
      simp only [List.foldl_cons]
      rw [ih]
      rw [step2_fold_required]
      constructor
      · rintro (⟨⟨b', hb', hkb'⟩, hm⟩ | (⟨hkb, hm⟩ | hq))
        · exact Or.inl ⟨⟨b', List.mem_cons_of_mem _ hb', hkb'⟩, hm⟩
        · exact Or.inl ⟨⟨b, List.mem_cons_self _ _, hkb⟩, hm⟩
        · exact Or.inr hq
      · rintro (⟨⟨b', hb', hkb'⟩, hm⟩ | hq)
        · rcases List.mem_cons.1 hb' with rfl | hb'
          · exact Or.inr (Or.inl ⟨hkb', hm⟩)
          · exact Or.inl ⟨⟨b', hb', hkb'⟩, hm⟩
        · exact Or.inr (Or.inr hq)
  rw [show buildDeps block_list outmap = block_list.foldl
      (fun acc block =>
        let step :=
          (blockStep2Inputs block).foldl
            (fun (st : List Nat × List String) i =>
              match dget outmap i with
              | some producer => (st.1 ++ [producer], insertIfAbsent st.2 i)
              | none => st)
            ([], acc.2)
        (acc.1 ++ [step.1], step.2))
      ([], []) from rfl, gen]
  simp

theorem outmap_inner_fold_ok (outputs : List String) (num : Nat)
    (acc fm : Dict Nat)
    (h : outputs.foldlM
        (fun outmap o =>
          if dmem o outmap then Except.error (o ++ " is output twice")
          else Except.ok (dset outmap o num))
        acc = Except.ok fm) (k : String) :
    dmem k fm ↔ dmem k acc ∨ k ∈ outputs := by
  induction outputs generalizing acc with
  | nil =>
    injection h with h
    simp [← h]
  | cons o os ih =>
    rw [List.foldlM_cons] at h
    by_cases ho : dmem o acc
    · rw [if_pos ho] at h
      cases h
    · rw [if_neg ho] at h
      have h' : os.foldlM
          (fun outmap o =>
            if dmem o outmap then Except.error (o ++ " is output twice")
            else Except.ok (dset outmap o num))
          (dset acc o num) = Except.ok fm := h
      rw [ih _ h', dmem_dset]
      simp only [List.mem_cons]
      tauto

theorem outmap_outer_fold_ok (l : List (Nat × Block)) (acc fm : Dict Nat)
    (h : l.foldlM
        (fun outmap p =>
          (blockOutputs p.2).foldlM
            (fun outmap o =>
              if dmem o outmap then Except.error (o ++ " is output twice")
              else Except.ok (dset outmap o p.1))
            outmap)
        acc = Except.ok fm) (k : String) :
    dmem k fm ↔ dmem k acc ∨ ∃ p ∈ l, k ∈ blockOutputs p.2 := by
  induction l generalizing acc with
  | nil =>
    injection h with h
    simp [← h]
  | cons p rest ih =>
    rw [List.foldlM_cons] at h
    cases hstep : (blockOutputs p.2).foldlM
        (fun outmap o =>
          if dmem o outmap then Except.error (o ++ " is output twice")
          else Except.ok (dset outmap o p.1))
        acc with
    | error e =>
      rw [hstep] at h
      cases h
    | ok mid =>
      rw [hstep] at h
      have h' : rest.foldlM _ mid = Except.ok fm := h
      rw [ih _ h', outmap_inner_fold_ok _ _ _ _ hstep]
      simp only [List.mem_cons]
      constructor
      · rintro ((hacc | hout) | ⟨q, hq, hkq⟩)
        · exact Or.inl hacc
        · exact Or.inr ⟨p, Or.inl rfl, hout⟩
        · exact Or.inr ⟨q, Or.inr hq, hkq⟩
      · rintro (hacc | ⟨q, rfl | hq, hkq⟩)
        · exact Or.inl (Or.inl hacc)
        · exact Or.inl (Or.inr hkq)
        · exact Or.inr ⟨q, hq, hkq⟩

theorem exists_enumFrom {α : Type} (l : List α) (P : α → Prop) :
    ∀ n, (∃ p ∈ l.enumFrom n, P p.2) ↔ ∃ b ∈ l, P b := by
  induction l with
  | nil => simp
  | cons b rest ih =>
    intro n
    rw [List.enumFrom_cons]
    simp only [List.mem_cons]
    constructor
    · rintro ⟨p, rfl | hp, hP⟩
      · exact ⟨b, Or.inl rfl, hP⟩
      · obtain ⟨b', hb', hP'⟩ := (ih (n + 1)).1 ⟨p, hp, hP⟩
        exact ⟨b', Or.inr hb', hP'⟩
    · rintro ⟨b', rfl | hb', hP⟩
      · exact ⟨(n, b'), Or.inl rfl, hP⟩
      · obtain ⟨p, hp, hP'⟩ := (ih (n + 1)).2 ⟨b', hb', hP⟩
        exact ⟨p, Or.inr hp, hP'⟩

/-- A successful `buildOutmap` binds exactly the output names produced by
some block of the list. -/
theorem buildOutmap_ok_mem (block_list : List Block) (outmap : Dict Nat)
    (h : buildOutmap block_list = Except.ok outmap) (k : String) :
    dmem k outmap ↔ ∃ b ∈ block_list, k ∈ blockOutputs b := by
  unfold buildOutmap at h
  rw [outmap_outer_fold_ok _ _ _ h k]
  rw [show (List.enum block_list) = List.enumFrom 0 block_list from rfl]
  rw [exists_enumFrom block_list (fun b => k ∈ blockOutputs b) 0]
  simp [dmem, dkeys]

/-- C3 counterexample: the block list has a single dictionary block with
output `"y"` and declared input `"x"`; `"x"` is produced by no node of the
list, yet the successful run returns `required = []` — an input *not*
produced by another node is never added to `required` (the code adds exactly
the produced ones). -/
theorem curlyJ_sorted_required_cex :
    ¬ (∀ (curlyJs : List JacDict) (required : List String),
        curlyJ_sorted [Block.jacdict [("y", [("x", Operator.identity)])]] ["x"] none
          = Except.ok (curlyJs, required) → "x" ∈ required) := by
  intro hclaim
  have hx : "x" ∈ ([] : List String) :=
    hclaim [[("y", [("x", Operator.identity)])]] [] rfl
  exact absurd hx (List.not_mem_nil _)

/-- C3 (amended): for every block list on which `curlyJ_sorted` succeeds, the
returned `required` set contains exactly the declared inputs of some node
that *are* produced by a node of the list (the intermediate outputs consumed
somewhere); a declared input produced by no node is exogenous and is *not*
added to `required`. -/
theorem curlyJ_sorted_required (block_list : List Block) (inputs : List String)
    (ss : Option (Dict Rat)) (curlyJs : List JacDict) (required : List String)
    (h : curlyJ_sorted block_list inputs ss = Except.ok (curlyJs, required)) :
    ∀ i, i ∈ required
      ↔ (∃ b ∈ block_list, i ∈ blockStep2Inputs b)
        ∧ (∃ b ∈ block_list, i ∈ blockOutputs b) := by
  intro i
  unfold curlyJ_sorted at h
  split at h
  · cases h
  · rename_i outmap hout
    split at h
    · cases h
    · have hreq : required = (buildDeps block_list outmap).2 := by
        injection h with h
        injection h with h1 h2
        exact h2.symm
      rw [hreq, buildDeps_required, buildOutmap_ok_mem block_list outmap hout i]

/-- Witness for C3 (amended): a two-block chain `x → y → z`; the
intermediate `"y"` is both consumed and produced, the exogenous `"x"` is
only consumed. -/
theorem curlyJ_sorted_required_witness :
    "y" ∈ ["y"]
      ↔ (∃ b ∈ [Block.jacdict [("y", [("x", Operator.identity)])],
                Block.jacdict [("z", [("y", Operator.identity)])]],
            "y" ∈ blockStep2Inputs b)
        ∧ (∃ b ∈ [Block.jacdict [("y", [("x", Operator.identity)])],
                  Block.jacdict [("z", [("y", Operator.identity)])]],
            "y" ∈ blockOutputs b) :=
  curlyJ_sorted_required
    [Block.jacdict [("y", [("x", Operator.identity)])],
     Block.jacdict [("z", [("y", Operator.identity)])]]
    ["x"] none
    [[("y", [("x", Operator.identity)])], [("z", [("y", Operator.identity)])]]
    ["y"] rfl "y"

/-! ## The identity operator (claim C9) -/

/-- C9: composing `IdentityMatrix` with any operator `X` on either side
returns `copy.deepcopy(X)` — modelled on pure values as the structurally
equal value itself, non-aliasing being automatic for pure values — and the
identity's materialization at horizon `T` is exactly the `T×T` identity
matrix `np.eye(T)`. -/
theorem identity_operator_law :
    ∀ (X : Operator) (T : Nat),
      Operator.matmul Operator.identity X = deepcopy X
      ∧ Operator.matmul X Operator.identity = deepcopy X
      ∧ deepcopy X = X
      ∧ Operator.matrix Operator.identity T = eye T := by
  intro X T
  cases X <;> exact ⟨rfl, rfl, rfl, rfl⟩

/-! ## The frame property of evaluation mode (claim C10) -/

/-- C10: `forward_accumulate` in evaluation mode never mutates the caller's
`inputs` dictionary.  In the heap model, the cell at the argument's address
is unchanged by the whole call: the accumulator is a fresh cell initialized
from `inputs.copy()`, and every `out.update(...)` write targets that fresh
cell only. -/
theorem fa_heap_eval_frame (curlyJs : List JacDict) (heap : List (Dict Val))
    (addr : Nat) (outputs required : Option (List String))
    (h : addr < heap.length) :
    ((fa_heap_eval curlyJs heap addr outputs required).1).getD addr []
      = heap.getD addr [] := by
  unfold fa_heap_eval
  have main : ∀ (l : List JacDict) (h2 : List (Dict Val)),
      h2.length = heap.length + 1 →
      ((l.foldl (fun hp curlyJ =>
          hp.set heap.length
            (dupdate (hp.getD heap.length [])
              (apply_jacobians
                (prune (fa_alloutputs outputs required) curlyJ)
                (hp.getD heap.length [])))) h2).getD addr []
        = h2.getD addr [])
      ∧ (l.foldl (fun hp curlyJ =>
          hp.set heap.length
            (dupdate (hp.getD heap.length [])
              (apply_jacobians
                (prune (fa_alloutputs outputs required) curlyJ)
                (hp.getD heap.length [])))) h2).length = heap.length + 1 := by
    intro l
    induction l with
    | nil => exact fun h2 hlen => ⟨rfl, hlen⟩
    | cons curlyJ rest ih =>
      intro h2 hlen
      simp only [List.foldl_cons]
      have hset : (h2.set heap.length
          (dupdate (h2.getD heap.length [])
            (apply_jacobians (prune (fa_alloutputs outputs required) curlyJ)
              (h2.getD heap.length [])))).length = heap.length + 1 := by
        rw [List.length_set]; exact hlen
      obtain ⟨ihget, ihlen⟩ := ih _ hset
      refine ⟨?_, ihlen⟩
      rw [ihget]
      simp only [List.getD_eq_getElem?_getD]
      rw [List.getElem?_set_ne (Nat.ne_of_gt h)]
  have base : (heap ++ [heap.getD addr []]).length = heap.length + 1 := by
    simp
  obtain ⟨hget, _⟩ := main curlyJs (heap ++ [heap.getD addr []]) base
  cases outputs with
  | none =>
    show ((curlyJs.foldl _ (heap ++ [heap.getD addr []])).getD addr []) = _
    rw [hget]
    simp only [List.getD_eq_getElem?_getD, List.getElem?_append]
    rw [if_pos h]
  | some os =>
    show ((curlyJs.foldl _ (heap ++ [heap.getD addr []])).getD addr []) = _
    rw [hget]
    simp only [List.getD_eq_getElem?_getD, List.getElem?_append]
    rw [if_pos h]

/-- Witness for C10 at a concrete instance: a one-cell heap holding
`{x: [1, 1]}` and a block that outputs `x` itself — even then the caller's
cell is untouched (only the fresh accumulator cell is rebound). -/
theorem fa_heap_eval_frame_witness :
    ((fa_heap_eval [[("x", [("x", Operator.dense [[2, 0], [0, 2]])])]]
        [[("x", [1, 1])]] 0 none none).1).getD 0 []
      = [[("x", [1, 1])]].getD 0 [] :=
  fa_heap_eval_frame [[("x", [("x", Operator.dense [[2, 0], [0, 2]])])]]
    [[("x", [1, 1])]] 0 none none (by decide)

/-! ## Matrix slice lemmas (claims C7, C8) -/

theorem dims_zeros (r c : Nat) : dims (zeros r c) r c := by
  unfold zeros dims
  constructor
  · exact List.length_replicate _ _
  · intro row hrow
    rw [List.eq_of_mem_replicate hrow]
    exact List.length_replicate _ _

theorem entry_zeros (r c i j : Nat) : entry (zeros r c) i j = 0 := by
  unfold entry
  rw [List.getD_eq_getElem?_getD (zeros r c) i []]
  unfold zeros
  rw [List.getElem?_replicate]
  by_cases hi : i < r
  · rw [if_pos hi]
    rw [show (some (List.replicate c (0 : Rat))).getD [] = List.replicate c 0 from rfl]
    rw [List.getD_eq_getElem?_getD, List.getElem?_replicate]
    by_cases hj : j < c
    · rw [if_pos hj]
      rfl
    · rw [if_neg hj]
      rfl
  · rw [if_neg hi]
    rfl

theorem setSliceRow_getD (row brow : List Rat) (c0 C T : Nat)
    (hrow : row.length = C) (hbrow : brow.length = T) (hc0 : c0 + T ≤ C)
    (c : Nat) :
    (setSliceRow row c0 brow).getD c 0
      = if c0 ≤ c ∧ c < c0 + T then brow.getD (c - c0) 0 else row.getD c 0 := by
  have hc0C : c0 ≤ C := le_trans (Nat.le_add_right _ _) hc0
  have hlen_take : (row.take c0).length = c0 := by
    rw [List.length_take, hrow]
    exact Nat.min_eq_left hc0C
  unfold setSliceRow
  rw [List.getD_eq_getElem?_getD, List.getElem?_append]
  by_cases h1 : c < c0
  · rw [if_pos (by rw [hlen_take]; exact h1)]
    rw [if_neg (by omega), List.getElem?_take, if_pos h1,
      ← List.getD_eq_getElem?_getD]
  · rw [if_neg (by rw [hlen_take]; omega), hlen_take, List.getElem?_append]
    by_cases h2 : c < c0 + T
    · rw [if_pos (by rw [hbrow]; omega), if_pos (by omega),
        ← List.getD_eq_getElem?_getD]
    · rw [if_neg (by rw [hbrow]; omega), if_neg (by omega), hbrow,
        List.getElem?_drop, ← List.getD_eq_getElem?_getD]
      congr 1
      omega

theorem setSlice_getElem? (M B : Mat) (r0 c0 R T : Nat) (hM : M.length = R)
    (hB : B.length = T) (hr0 : r0 + T ≤ R) (r : Nat) :
    (setSlice M r0 c0 B)[r]?
      = if r0 ≤ r ∧ r < r0 + T then
          match M[r]?, B[r - r0]? with
          | some row, some brow => some (setSliceRow row c0 brow)
          | _, _ => none
        else M[r]? := by
  have hr0R : r0 ≤ R := le_trans (Nat.le_add_right _ _) hr0
  have hlen_take : (M.take r0).length = r0 := by
    rw [List.length_take, hM]
    exact Nat.min_eq_left hr0R
  have hlen_mid : (List.zipWith (fun row brow => setSliceRow row c0 brow)
      ((M.drop r0).take B.length) B).length = T := by
    rw [List.length_zipWith, List.length_take, List.length_drop, hM, hB]
    omega
  unfold setSlice
  rw [List.getElem?_append]
  by_cases h1 : r < r0
  · rw [if_pos (by rw [hlen_take]; exact h1)]
    rw [if_neg (by omega), List.getElem?_take, if_pos h1]
  · rw [if_neg (by rw [hlen_take]; omega), hlen_take, List.getElem?_append]
    by_cases h2 : r < r0 + T
    · rw [if_pos (by rw [hlen_mid]; omega), if_pos (by omega)]
      rw [List.getElem?_zipWith, List.getElem?_take, if_pos (by rw [hB]; omega),
        List.getElem?_drop]
      rw [show r0 + (r - r0) = r by omega]
      cases M[r]? <;> cases B[r - r0]? <;> rfl
    · rw [if_neg (by rw [hlen_mid]; omega), if_neg (by omega), hlen_mid, hB,
        List.getElem?_drop]
      rw [show r0 + T + (r - r0 - T) = r by omega]

theorem entry_setSlice (M B : Mat) (r0 c0 R C T : Nat) (hM : dims M R C)
    (hB : dims B T T) (hr0 : r0 + T ≤ R) (hc0 : c0 + T ≤ C) (r c : Nat) :
    entry (setSlice M r0 c0 B) r c
      = if r0 ≤ r ∧ r < r0 + T ∧ c0 ≤ c ∧ c < c0 + T
        then entry B (r - r0) (c - c0)
        else entry M r c := by
  unfold entry
  rw [List.getD_eq_getElem?_getD (setSlice M r0 c0 B) r [],
    setSlice_getElem? M B r0 c0 R T hM.1 hB.1 hr0 r]
  by_cases h1 : r0 ≤ r ∧ r < r0 + T
  · rw [if_pos h1]
    have hrR : r < R := by omega
    have hrr0T : r - r0 < T := by omega
    have hrowget : M[r]? = some (M.getD r []) := by
      rw [List.getD_eq_getElem?_getD, List.getElem?_eq_getElem (hM.1 ▸ hrR)]
      rfl
    have hbrowget : B[r - r0]? = some (B.getD (r - r0) []) := by
      rw [List.getD_eq_getElem?_getD, List.getElem?_eq_getElem (hB.1 ▸ hrr0T)]
      rfl
    rw [hrowget, hbrowget]
    have hrowlen : (M.getD r []).length = C := by
      apply hM.2
      rw [List.getD_eq_getElem?_getD, List.getElem?_eq_getElem (hM.1 ▸ hrR)]
      exact List.getElem_mem _
    have hbrowlen : (B.getD (r - r0) []).length = T := by
      apply hB.2
      rw [List.getD_eq_getElem?_getD, List.getElem?_eq_getElem (hB.1 ▸ hrr0T)]
      exact List.getElem_mem _
    show (setSliceRow (M.getD r []) c0 (B.getD (r - r0) [])).getD c 0 = _
    rw [setSliceRow_getD _ _ c0 C T hrowlen hbrowlen hc0 c]
    by_cases h2 : c0 ≤ c ∧ c < c0 + T
    · rw [if_pos h2, if_pos ⟨h1.1, h1.2, h2.1, h2.2⟩]
    · rw [if_neg h2, if_neg (by tauto)]
  · rw [if_neg h1, if_neg (by tauto)]
    rw [List.getD_eq_getElem?_getD M r []]

theorem dims_setSlice (M B : Mat) (r0 c0 R C T : Nat) (hM : dims M R C)
    (hB : dims B T T) (hr0 : r0 + T ≤ R) (hc0 : c0 + T ≤ C) :
    dims (setSlice M r0 c0 B) R C := by
  have hlen : (setSlice M r0 c0 B).length = R := by
    unfold setSlice
    rw [List.length_append, List.length_append, List.length_take,
      List.length_zipWith, List.length_take, List.length_drop, List.length_drop,
      hM.1, hB.1]
    omega
  refine ⟨hlen, ?_⟩
  intro row hrow
  obtain ⟨n, hn⟩ := List.mem_iff_getElem?.1 hrow
  rw [setSlice_getElem? M B r0 c0 R T hM.1 hB.1 hr0 n] at hn
  by_cases h1 : r0 ≤ n ∧ n < r0 + T
  · rw [if_pos h1] at hn
    cases hMn : M[n]? with
    | none =>
      rw [hMn] at hn
      cases B[n - r0]? <;> cases hn
    | some mrow =>
      cases hBn : B[n - r0]? with
      | none =>
        rw [hMn, hBn] at hn
        cases hn
      | some brow =>
        rw [hMn, hBn] at hn
        injection hn with hn
        have hmC : mrow.length = C := hM.2 mrow (List.mem_iff_getElem?.2 ⟨n, hMn⟩)
        have hbT : brow.length = T := hB.2 brow (List.mem_iff_getElem?.2 ⟨_, hBn⟩)
        rw [← hn]
        unfold setSliceRow
        rw [List.length_append, List.length_append, List.length_take,
          List.length_drop, hmC, hbT]
        omega
  · rw [if_neg h1] at hn
    exact hM.2 row (List.mem_iff_getElem?.2 ⟨n, hn⟩)

theorem entry_subMatrix (M : Mat) (r0 c0 T i j : Nat) (hi : i < T) (hj : j < T) :
    entry (subMatrix M r0 c0 T) i j = entry M (r0 + i) (c0 + j) := by
  unfold entry
  rw [List.getD_eq_getElem?_getD (subMatrix M r0 c0 T) i []]
  unfold subMatrix
  rw [List.getElem?_map, List.getElem?_take, if_pos hi, List.getElem?_drop]
  rw [List.getD_eq_getElem?_getD M (r0 + i) []]
  cases M[r0 + i]? with
  | none => rfl
  | some row =>
    show (List.take T (List.drop c0 row)).getD j 0 = row.getD (c0 + j) 0
    rw [List.getD_eq_getElem?_getD, List.getElem?_take, if_pos hj,
      List.getElem?_drop, List.getD_eq_getElem?_getD]

theorem dims_subMatrix (M : Mat) (r0 c0 R C T : Nat) (hM : dims M R C)
    (hr0 : r0 + T ≤ R) (hc0 : c0 + T ≤ C) :
    dims (subMatrix M r0 c0 T) T T := by
  constructor
  · unfold subMatrix
    rw [List.length_map, List.length_take, List.length_drop, hM.1]
    omega
  · intro row hrow
    unfold subMatrix at hrow
    rw [List.mem_map] at hrow
    obtain ⟨r, hr, rfl⟩ := hrow
    have hrC : r.length = C :=
      hM.2 r (List.mem_of_mem_drop (List.mem_of_mem_take hr))
    rw [List.length_take, List.length_drop, hrC]
    omega

/-- Two matrices of the same shape agreeing entrywise are equal. -/
theorem mat_ext (A B : Mat) (T : Nat) (hA : dims A T T) (hB : dims B T T)
    (h : ∀ i < T, ∀ j < T, entry A i j = entry B i j) : A = B := by
  apply List.ext_getElem (by rw [hA.1, hB.1])
  intro n h1 h2
  apply List.ext_getElem
    (by rw [hA.2 _ (List.getElem_mem h1), hB.2 _ (List.getElem_mem h2)])
  intro m hm1 hm2
  have hn : n < T := by rw [hA.1] at h1; exact h1
  have hmT : m < T := by
    rw [hA.2 (A[n]) (List.getElem_mem h1)] at hm1
    exact hm1
  have he := h n hn m hmT
  unfold entry at he
  rw [List.getD_eq_getElem?_getD A n [], List.getD_eq_getElem?_getD B n [],
    List.getElem?_eq_getElem h1, List.getElem?_eq_getElem h2] at he
  rw [show (some A[n]).getD [] = A[n] from rfl,
    show (some B[n]).getD [] = B[n] from rfl] at he
  rw [List.getD_eq_getElem?_getD, List.getD_eq_getElem?_getD,
    List.getElem?_eq_getElem hm1, List.getElem?_eq_getElem hm2] at he
  simpa using he

/-! ## The pure content of `pack_jacobians` (claims C7, C8) -/

/-- The well-formedness of one optional Jacobian entry for packing at
horizon `T`: absent, or a dense `T×T` array (the only case numpy slice
assignment accepts). -/
def denseEntry (T : Nat) : Option Operator → Prop
  | some (Operator.dense A) => dims A T T
  | some Operator.identity => False
  | some (Operator.scalarId _) => False
  | none => True

instance (T : Nat) (x : Option Operator) : Decidable (denseEntry T x) :=
  match x with
  | some (Operator.dense A) => (inferInstance : Decidable (dims A T T))
  | some Operator.identity => Decidable.isFalse (fun h => h)
  | some (Operator.scalarId _) => Decidable.isFalse (fun h => h)
  | none => Decidable.isTrue trivial

/-- The dense `T×T` block `pack_jacobians` writes for the pair `(o, i)`: the
entry itself when present (and dense), else a `T×T` zero block. -/
def blockAt (jacdict : JacDict) (o i : String) (T : Nat) : Mat :=
  match dget2 jacdict o i with
  | some (Operator.dense A) => A
  | some _ => zeros T T
  | none => zeros T T

theorem dget_dgetD_nil (jacdict : JacDict) (o i : String) :
    dget (dgetD jacdict o []) i = dget2 jacdict o i := by
  unfold dget2 dgetD
  cases dget jacdict o <;> rfl

theorem dims_blockAt (jacdict : JacDict) (o i : String) (T : Nat)
    (h : denseEntry T (dget2 jacdict o i)) :
    dims (blockAt jacdict o i T) T T := by
  unfold blockAt
  unfold denseEntry at h
  cases hx : dget2 jacdict o i with
  | none => exact dims_zeros T T
  | some op =>
    cases op with
    | identity =>
      rw [hx] at h
      cases h
    | scalarId c =>
      rw [hx] at h
      cases h
    | dense A =>
      rw [hx] at h
      exact h

/-- A `foldlM` over `Option` all of whose steps succeed is the `some` of the
corresponding pure fold. -/
theorem foldlM_option_eq_foldl {α β : Type} (l : List α) (f : β → α → Option β)
    (g : β → α → β) (h : ∀ b, ∀ a ∈ l, f b a = some (g b a)) (b : β) :
    l.foldlM f b = some (l.foldl g b) := by
  induction l generalizing b with
  | nil => rfl
  | cons a l ih =>
    rw [List.foldlM_cons, h b a (List.mem_cons_self _ _)]
    show l.foldlM f (g b a) = _
    rw [ih (fun b' a' ha' => h b' a' (List.mem_cons_of_mem _ ha')) (g b a)]
    rfl

/-- The pure matrix computed by a successful `pack_jacobians`. -/
def packPure (jacdict : JacDict) (inputs outputs : List String) (T : Nat) : Mat :=
  (List.range outputs.length).foldl
    (fun M oIdx =>
      (List.range inputs.length).foldl
        (fun M iIdx => setSlice M (T * oIdx) (T * iIdx)
          (blockAt jacdict (outputs.getD oIdx "") (inputs.getD iIdx "") T))
        M)
    (zeros (outputs.length * T) (inputs.length * T))

theorem pack_jacobians_eq_packPure (jacdict : JacDict) (inputs outputs : List String)
    (T : Nat)
    (HD : ∀ o ∈ outputs, ∀ i ∈ inputs, denseEntry T (dget2 jacdict o i)) :
    pack_jacobians jacdict inputs outputs T
      = some (packPure jacdict inputs outputs T) := by
  unfold pack_jacobians packPure
  apply foldlM_option_eq_foldl
  intro M oIdx hoIdx
  apply foldlM_option_eq_foldl
  intro M2 iIdx hiIdx
  rw [List.mem_range] at hoIdx hiIdx
  have ho : outputs.getD oIdx "" ∈ outputs := by
    rw [List.getD_eq_getElem?_getD, List.getElem?_eq_getElem (by omega)]
    exact List.getElem_mem _
  have hi : inputs.getD iIdx "" ∈ inputs := by
    rw [List.getD_eq_getElem?_getD, List.getElem?_eq_getElem (by omega)]
    exact List.getElem_mem _
  have hde := HD _ ho _ hi
  rw [dget_dgetD_nil]
  unfold blockAt
  unfold denseEntry at hde
  cases hx : dget2 jacdict (outputs.getD oIdx "") (inputs.getD iIdx "") with
  | none => rfl
  | some op =>
    rw [hx] at hde
    cases op with
    | identity => exact (hde : False).elim
    | scalarId c => exact (hde : False).elim
    | dense A =>
      have hde2 : dims A T T := hde
      show Option.map (fun B => setSlice M2 (T * oIdx) (T * iIdx) B)
          (if dims A T T then some A else none)
        = some (setSlice M2 (T * oIdx) (T * iIdx) A)
      rw [if_pos hde2]
      rfl

/-- The inner (column) loop of `pack_jacobians` for row block `oIdx`,
restricted to the first `m` inputs. -/
def packRowFold (jacdict : JacDict) (inputs outputs : List String)
    (T oIdx m : Nat) (M : Mat) : Mat :=
  (List.range m).foldl
    (fun M iIdx => setSlice M (T * oIdx) (T * iIdx)
      (blockAt jacdict (outputs.getD oIdx "") (inputs.getD iIdx "") T))
    M

/-- The outer (row) loop of `pack_jacobians`, restricted to the first `n`
outputs. -/
def packColFold (jacdict : JacDict) (inputs outputs : List String)
    (T n : Nat) : Mat :=
  (List.range n).foldl
    (fun M oIdx => packRowFold jacdict inputs outputs T oIdx inputs.length M)
    (zeros (outputs.length * T) (inputs.length * T))

theorem packPure_eq_packColFold (jacdict : JacDict) (inputs outputs : List String)
    (T : Nat) :
    packPure jacdict inputs outputs T
      = packColFold jacdict inputs outputs T outputs.length := rfl

theorem band_le (T a n : Nat) (h : a < n) : T * a + T ≤ n * T := by
  have h2 : T * (a + 1) ≤ T * n := Nat.mul_le_mul_left T h
  calc T * a + T = T * (a + 1) := by ring
  _ ≤ T * n := h2
  _ = n * T := Nat.mul_comm T n

theorem band_lt (T b m j : Nat) (hb : b < m) (hj : j < T) :
    T * b + j < T * m := by
  have h1 : T * b + j < T * (b + 1) := by
    have : T * (b + 1) = T * b + T := by ring
    omega
  have h2 : T * (b + 1) ≤ T * m := Nat.mul_le_mul_left T hb
  omega

theorem pack_inner_inv (jacdict : JacDict) (inputs outputs : List String) (T : Nat)
    (HDims : ∀ a < outputs.length, ∀ b < inputs.length,
      dims (blockAt jacdict (outputs.getD a "") (inputs.getD b "") T) T T)
    (oIdx : Nat) (hoIdx : oIdx < outputs.length) :
    ∀ (m : Nat), m ≤ inputs.length → ∀ (M : Mat),
      dims M (outputs.length * T) (inputs.length * T) →
      dims (packRowFold jacdict inputs outputs T oIdx m M)
          (outputs.length * T) (inputs.length * T)
      ∧ (∀ b, b < m → ∀ i, i < T → ∀ j, j < T →
          entry (packRowFold jacdict inputs outputs T oIdx m M) (T * oIdx + i) (T * b + j)
            = entry (blockAt jacdict (outputs.getD oIdx "") (inputs.getD b "") T) i j)
      ∧ (∀ r c, (r < T * oIdx ∨ T * oIdx + T ≤ r) →
          entry (packRowFold jacdict inputs outputs T oIdx m M) r c = entry M r c) := by
  intro m
  induction m with
  | zero =>
    intro _ M hM
    exact ⟨hM, fun b hb => absurd hb (Nat.not_lt_zero b), fun r c _ => rfl⟩
  | succ m ih =>
    intro hm M hM
    have hm' : m ≤ inputs.length := Nat.le_of_succ_le hm
    obtain ⟨ih1, ih2, ih3⟩ := ih hm' M hM
    have hstep : packRowFold jacdict inputs outputs T oIdx (m + 1) M
        = setSlice (packRowFold jacdict inputs outputs T oIdx m M) (T * oIdx) (T * m)
            (blockAt jacdict (outputs.getD oIdx "") (inputs.getD m "") T) := by
      unfold packRowFold
      rw [List.range_succ, List.foldl_append]
      rfl
    have hBdims : dims (blockAt jacdict (outputs.getD oIdx "") (inputs.getD m "") T) T T :=
      HDims oIdx hoIdx m (by omega)
    have hband_r : T * oIdx + T ≤ outputs.length * T := band_le T oIdx _ hoIdx
    have hband_c : T * m + T ≤ inputs.length * T := band_le T m _ (by omega)
    refine ⟨?_, ?_, ?_⟩
    · rw [hstep]
      exact dims_setSlice _ _ _ _ _ _ _ ih1 hBdims hband_r hband_c
    · intro b hb i hi j hj
      rw [hstep, entry_setSlice _ _ _ _ _ _ _ ih1 hBdims hband_r hband_c]
      by_cases hbm : b = m
      · subst hbm
        rw [if_pos ⟨Nat.le_add_right _ _, by omega, Nat.le_add_right _ _, by omega⟩]
        congr 1
        · omega
        · omega
      · have hbm' : b < m := by omega
        have hcol : T * b + j < T * m := band_lt T b m j hbm' hj
        rw [if_neg (fun hcon => by omega)]
        exact ih2 b hbm' i hi j hj
    · intro r c hr
      rw [hstep, entry_setSlice _ _ _ _ _ _ _ ih1 hBdims hband_r hband_c]
      rw [if_neg (fun hcon => by rcases hr with h | h <;> omega)]
      exact ih3 r c hr

theorem pack_outer_inv (jacdict : JacDict) (inputs outputs : List String) (T : Nat)
    (HDims : ∀ a < outputs.length, ∀ b < inputs.length,
      dims (blockAt jacdict (outputs.getD a "") (inputs.getD b "") T) T T) :
    ∀ (n : Nat), n ≤ outputs.length →
      dims (packColFold jacdict inputs outputs T n)
          (outputs.length * T) (inputs.length * T)
      ∧ (∀ a, a < n → ∀ b, b < inputs.length → ∀ i, i < T → ∀ j, j < T →
          entry (packColFold jacdict inputs outputs T n) (T * a + i) (T * b + j)
            = entry (blockAt jacdict (outputs.getD a "") (inputs.getD b "") T) i j) := by
  intro n
  induction n with
  | zero =>
    intro _
    exact ⟨dims_zeros _ _, fun a ha => absurd ha (Nat.not_lt_zero a)⟩
  | succ n ih =>
    intro hn
    have hn' : n ≤ outputs.length := Nat.le_of_succ_le hn
    obtain ⟨ih1, ih2⟩ := ih hn'
    have hstep : packColFold jacdict inputs outputs T (n + 1)
        = packRowFold jacdict inputs outputs T n inputs.length
            (packColFold jacdict inputs outputs T n) := by
      unfold packColFold
      rw [List.range_succ, List.foldl_append]
      rfl
    obtain ⟨in1, in2, in3⟩ := pack_inner_inv jacdict inputs outputs T HDims n
      (by omega) inputs.length (le_refl _) (packColFold jacdict inputs outputs T n) ih1
    constructor
    · rw [hstep]
      exact in1
    · intro a ha b hb i hi j hj
      rw [hstep]
      by_cases han : a = n
      · subst han
        exact in2 b hb i hi j hj
      · have han' : a < n := by omega
        have hrow : T * a + i < T * n := band_lt T a n i han' hi
        rw [in3 _ _ (Or.inl hrow)]
        exact ih2 a han' b hb i hi j hj

/-- The block structure of a packed matrix: correct shape, and every `T×T`
slice at block position `(a, b)` is the corresponding dense entry (or zero
block). -/
theorem packPure_blocks (jacdict : JacDict) (inputs outputs : List String) (T : Nat)
    (HDims : ∀ a < outputs.length, ∀ b < inputs.length,
      dims (blockAt jacdict (outputs.getD a "") (inputs.getD b "") T) T T) :
    dims (packPure jacdict inputs outputs T)
        (outputs.length * T) (inputs.length * T)
    ∧ ∀ a, a < outputs.length → ∀ b, b < inputs.length →
        subMatrix (packPure jacdict inputs outputs T) (T * a) (T * b) T
          = blockAt jacdict (outputs.getD a "") (inputs.getD b "") T := by
  obtain ⟨h1, h2⟩ := pack_outer_inv jacdict inputs outputs T HDims
    outputs.length (le_refl _)
  rw [packPure_eq_packColFold]
  refine ⟨h1, ?_⟩
  intro a ha b hb
  apply mat_ext _ _ T
    (dims_subMatrix _ _ _ _ _ _ h1 (band_le T a _ ha) (band_le T b _ hb))
    (HDims a ha b hb)
  intro i hi j hj
  rw [entry_subMatrix _ _ _ _ _ _ hi hj]
  exact h2 a ha b hb i hi j hj

theorem HDims_of_denseEntries (jacdict : JacDict) (inputs outputs : List String)
    (T : Nat)
    (HD : ∀ o ∈ outputs, ∀ i ∈ inputs, denseEntry T (dget2 jacdict o i)) :
    ∀ a < outputs.length, ∀ b < inputs.length,
      dims (blockAt jacdict (outputs.getD a "") (inputs.getD b "") T) T T := by
  intro a ha b hb
  apply dims_blockAt
  apply HD
  · rw [List.getD_eq_getElem?_getD, List.getElem?_eq_getElem ha]
    exact List.getElem_mem _
  · rw [List.getD_eq_getElem?_getD, List.getElem?_eq_getElem hb]
    exact List.getElem_mem _

/-- C7 counterexample: with an `IdentityMatrix` entry, `pack_jacobians` does
*not* lay the block from the operator's `T×T` materialization — it assigns
the object into the numpy slice without calling `.matrix`, which raises
(modelled as `none`) — even though the materialization (`eye 2`) exists. -/
theorem pack_jacobians_identity_cex :
    pack_jacobians [("y", [("x", Operator.identity)])] ["x"] ["y"] 2 = none
    ∧ Operator.matrix Operator.identity 2 = eye 2 :=
  ⟨rfl, rfl⟩

/-- C7 (amended): when every present entry is a dense `T×T` array,
`pack_jacobians` succeeds and block `(a, b)` of the `(nO·T)×(nI·T)` result
equals that entry exactly, or a `T×T` zero block when the entry is absent.
A present sparse or identity entry is slice-assigned without `to_matrix`
materialization and raises (see the counterexample). -/
theorem pack_jacobians_dense (jacdict : JacDict) (inputs outputs : List String)
    (T : Nat)
    (HD : ∀ o ∈ outputs, ∀ i ∈ inputs, denseEntry T (dget2 jacdict o i)) :
    pack_jacobians jacdict inputs outputs T
        = some (packPure jacdict inputs outputs T)
    ∧ dims (packPure jacdict inputs outputs T)
        (outputs.length * T) (inputs.length * T)
    ∧ ∀ a, a < outputs.length → ∀ b, b < inputs.length →
        subMatrix (packPure jacdict inputs outputs T) (T * a) (T * b) T
          = blockAt jacdict (outputs.getD a "") (inputs.getD b "") T := by
  obtain ⟨h1, h2⟩ := packPure_blocks jacdict inputs outputs T
    (HDims_of_denseEntries jacdict inputs outputs T HD)
  exact ⟨pack_jacobians_eq_packPure jacdict inputs outputs T HD, h1, h2⟩

/-- Witness for C7 (amended) at a concrete instance: one present dense
entry, three absent ones. -/
theorem pack_jacobians_dense_witness :
    pack_jacobians [("y", [("x", Operator.dense [[1, 2], [3, 4]])])]
        ["x", "w"] ["y", "v"] 2
      = some (packPure [("y", [("x", Operator.dense [[1, 2], [3, 4]])])]
          ["x", "w"] ["y", "v"] 2)
    ∧ dims (packPure [("y", [("x", Operator.dense [[1, 2], [3, 4]])])]
        ["x", "w"] ["y", "v"] 2) (["y", "v"].length * 2) (["x", "w"].length * 2)
    ∧ ∀ a, a < ["y", "v"].length → ∀ b, b < ["x", "w"].length →
        subMatrix (packPure [("y", [("x", Operator.dense [[1, 2], [3, 4]])])]
            ["x", "w"] ["y", "v"] 2) (2 * a) (2 * b) 2
          = blockAt [("y", [("x", Operator.dense [[1, 2], [3, 4]])])]
              (["y", "v"].getD a "") (["x", "w"].getD b "") 2 :=
  pack_jacobians_dense _ _ _ 2 (by decide)

/-! ## Unpacking and the round trip (claim C8) -/

theorem map_getD_range {α : Type} (l : List α) (d : α) :
    (List.range l.length).map (fun n => l.getD n d) = l := by
  apply List.ext_getElem (by simp)
  intro n h1 h2
  rw [List.getElem_map]
  rw [List.getElem_range]
  rw [List.getD_eq_getElem?_getD, List.getElem?_eq_getElem h2]
  rfl

theorem unpack_jacobians_get (bigjac : Mat) (inputs outputs : List String)
    (T : Nat) (hno : outputs.Nodup) (o : String) :
    dget (unpack_jacobians bigjac inputs outputs T) o
      = match (List.range outputs.length).find?
            (fun oIdx => outputs.getD oIdx "" == o) with
        | some oIdx => some ((List.range inputs.length).foldl
            (fun inner iIdx => dset inner (inputs.getD iIdx "")
              (Operator.dense (subMatrix bigjac (T * oIdx) (T * iIdx) T))) [])
        | none => none := by
  unfold unpack_jacobians
  rw [foldl_dset_get (List.range outputs.length)
    (fun oIdx => outputs.getD oIdx "")
    (fun oIdx => (List.range inputs.length).foldl
      (fun inner iIdx => dset inner (inputs.getD iIdx "")
        (Operator.dense (subMatrix bigjac (T * oIdx) (T * iIdx) T))) [])
    [] o (by rw [map_getD_range outputs ""]; exact hno)]
  cases (List.range outputs.length).find? (fun oIdx => outputs.getD oIdx "" == o) with
  | some oIdx => rfl
  | none => rfl

/-- C8: for a Jacobian dictionary whose present entries are dense `T×T`
arrays over duplicate-free name lists, `unpack ∘ pack` restricted to those
lists is total and exact: every (output, input) pair from the lists is
present, pairs present in the dictionary recover their `T×T` block exactly,
and absent pairs become the exact `T×T` zero matrix rather than an absent
key. -/
theorem pack_unpack_roundtrip (jacdict : JacDict) (inputs outputs : List String)
    (T : Nat)
    (HD : ∀ o ∈ outputs, ∀ i ∈ inputs, denseEntry T (dget2 jacdict o i))
    (hno : outputs.Nodup) (hni : inputs.Nodup) :
    ∃ M, pack_jacobians jacdict inputs outputs T = some M
      ∧ ∀ o ∈ outputs, ∀ i ∈ inputs,
          dget2 (unpack_jacobians M inputs outputs T) o i
            = some (Operator.dense (blockAt jacdict o i T)) := by
  refine ⟨packPure jacdict inputs outputs T,
    pack_jacobians_eq_packPure jacdict inputs outputs T HD, ?_⟩
  intro o ho i hi
  unfold dget2
  rw [unpack_jacobians_get _ _ _ _ hno o]
  cases hfo : (List.range outputs.length).find?
      (fun oIdx => outputs.getD oIdx "" == o) with
  | none =>
    exfalso
    obtain ⟨a, ha2⟩ := List.mem_iff_getElem?.1 ho
    obtain ⟨ha, _⟩ := List.getElem?_eq_some.1 ha2
    have hoa : outputs.getD a "" = o := by
      rw [List.getD_eq_getElem?_getD, ha2]
      rfl
    have hnone := List.find?_eq_none.1 hfo a (List.mem_range.2 ha)
    rw [hoa] at hnone
    simp at hnone
  | some a =>
    have hp := List.find?_some hfo
    have ha := List.mem_range.1 (List.mem_of_find?_eq_some hfo)
    have hoa : outputs.getD a "" = o := by simpa using hp
    show dget ((List.range inputs.length).foldl
      (fun inner iIdx => dset inner (inputs.getD iIdx "")
        (Operator.dense (subMatrix (packPure jacdict inputs outputs T)
          (T * a) (T * iIdx) T))) []) i = _
    rw [foldl_dset_get (List.range inputs.length)
      (fun iIdx => inputs.getD iIdx "")
      (fun iIdx => Operator.dense (subMatrix (packPure jacdict inputs outputs T)
        (T * a) (T * iIdx) T))
      [] i (by rw [map_getD_range inputs ""]; exact hni)]
    cases hfi : (List.range inputs.length).find?
        (fun iIdx => inputs.getD iIdx "" == i) with
    | none =>
      exfalso
      obtain ⟨b, hb2⟩ := List.mem_iff_getElem?.1 hi
      obtain ⟨hb, _⟩ := List.getElem?_eq_some.1 hb2
      have hib : inputs.getD b "" = i := by
        rw [List.getD_eq_getElem?_getD, hb2]
        rfl
      have hnone := List.find?_eq_none.1 hfi b (List.mem_range.2 hb)
      rw [hib] at hnone
      simp at hnone
    | some b =>
      have hpb := List.find?_some hfi
      have hb := List.mem_range.1 (List.mem_of_find?_eq_some hfi)
      have hib : inputs.getD b "" = i := by simpa using hpb
      have hsub := (packPure_blocks jacdict inputs outputs T
        (HDims_of_denseEntries jacdict inputs outputs T HD)).2 a ha b hb
      show some (Operator.dense (subMatrix (packPure jacdict inputs outputs T)
          (T * a) (T * b) T)) = some (Operator.dense (blockAt jacdict o i T))
      rw [hsub, hoa, hib]

/-- Witness for C8 at a concrete instance: one present dense entry
(recovered exactly) and pairs absent from the dictionary (recovered as zero
blocks). -/
theorem pack_unpack_roundtrip_witness :
    ∃ M, pack_jacobians [("y", [("x", Operator.dense [[1, 2], [3, 4]])])]
        ["x", "w"] ["y", "v"] 2 = some M
      ∧ ∀ o ∈ ["y", "v"], ∀ i ∈ ["x", "w"],
          dget2 (unpack_jacobians M ["x", "w"] ["y", "v"] 2) o i
            = some (Operator.dense
                (blockAt [("y", [("x", Operator.dense [[1, 2], [3, 4]])])] o i 2)) :=
  pack_unpack_roundtrip _ _ _ 2 (by decide) (by decide) (by decide)
